import Mathlib

/-!
Verification of the reflective schema engine and binary wire codec
(`src/type.js` of the repository, together with the wire primitives it
depends on).  JavaScript values are embedded shallowly: numbers as `Int`,
strings as lists of Unicode code points, objects as opaque identities.
Stateful code (`Type` with its lazily memoized caches) is embedded as
explicit state passing.  The wire primitives (`reader.js` / `writer.js`)
and the per-field codec (`field.js`) are not part of the provided source;
where they are needed they are modelled from the specification, and each
such definition says so in its doc comment.
-/

set_option linter.unusedVariables false

namespace Proto

/-- Fragment of JavaScript runtime values appearing in messages and default
values: numbers (modelled as integers), strings (as lists of Unicode code
points, mirroring JS sequences of code units), booleans, `null`,
`undefined`, and objects.  An object is opaque: it carries an identity
(for strict equality) and the string its `ToPrimitive` coercion yields
(for loose equality).  Arrays are represented as opaque objects; their
element contents lie outside the modelled fragment. -/
inductive JSValue where
  | num (n : Int)
  | str (s : List Nat)
  | boolean (b : Bool)
  | nullv
  | undefined
  | obj (oid : Nat) (prim : List Nat)
deriving DecidableEq, Repr

/-- JS truthiness: `0`, `""`, `false`, `null` and `undefined` are falsy,
every object is truthy. -/
def truthy : JSValue → Bool
  | .num n => n != 0
  | .str s => !s.isEmpty
  | .boolean b => b
  | .nullv => false
  | .undefined => false
  | .obj _ _ => true

/-- `util.isObject`: objects (including arrays) and nothing else. -/
def isObject : JSValue → Bool
  | .obj _ _ => true
  | _ => false

/-- JS whitespace code points recognised when coercing a string to a
number (the fragment: tab, LF, CR, space). -/
def isWs (c : Nat) : Bool :=
  c == 9 || c == 10 || c == 13 || c == 32

def isDigit (c : Nat) : Bool :=
  48 ≤ c && c ≤ 57

/-- Decimal digit run to a natural number; `none` if empty or any
non-digit occurs. -/
def digitsToNat (l : List Nat) : Option Nat :=
  if l.isEmpty then none
  else if l.all isDigit then
    some (l.foldl (fun acc c => acc * 10 + (c - 48)) 0)
  else none

/-- JS `ToNumber` on a string (decimal fragment): trimmed empty string is
`0`; an optional sign followed by decimal digits is that integer; anything
else is NaN, modelled as `none`. -/
def strToNum (s : List Nat) : Option Int :=
  let t := (s.dropWhile isWs).reverse.dropWhile isWs |>.reverse
  if t.isEmpty then some 0
  else match t with
    | 45 :: rest => (digitsToNat rest).map (fun n => -(n : Int))
    | 43 :: rest => (digitsToNat rest).map (fun n => (n : Int))
    | _ => (digitsToNat t).map (fun n => (n : Int))

/-- JS `ToNumber` on the primitive fragment (`none` = NaN). -/
def toNumber : JSValue → Option Int
  | .num n => some n
  | .str s => strToNum s
  | .boolean b => some (if b then 1 else 0)
  | .nullv => some 0
  | .undefined => none
  | .obj _ p => strToNum p

/-- JS abstract (loose) equality `==` restricted to primitives:
`null`/`undefined` equal each other and nothing else; equal-typed
primitives compare directly; mixed number/string/boolean comparisons
coerce both sides to numbers (NaN comparisons are false). -/
def jsEqPrim (x y : JSValue) : Bool :=
  match x, y with
  | .nullv, .nullv => true
  | .nullv, .undefined => true
  | .undefined, .nullv => true
  | .undefined, .undefined => true
  | .nullv, _ => false
  | _, .nullv => false
  | .undefined, _ => false
  | _, .undefined => false
  | .str a, .str b => a == b
  | x, y =>
    match toNumber x, toNumber y with
    | some a, some b => a == b
    | _, _ => false

/-- JS abstract (loose) equality `==` on the modelled fragment: two
objects compare by identity; an object against `null`/`undefined` is
false; an object against another primitive compares through its
`ToPrimitive` string. -/
def jsEq (x y : JSValue) : Bool :=
  match x, y with
  | .obj i _, .obj j _ => i == j
  | .obj _ _, .nullv => false
  | .obj _ _, .undefined => false
  | .nullv, .obj _ _ => false
  | .undefined, .obj _ _ => false
  | .obj _ p, y => jsEqPrim (.str p) y
  | x, .obj _ p => jsEqPrim x (.str p)
  | x, y => jsEqPrim x y

/-- JS strict equality `===` on the modelled fragment: same-typed values
compare directly, objects by identity, everything else is false. -/
def jsStrictEq (x y : JSValue) : Bool :=
  match x, y with
  | .num a, .num b => a == b
  | .str a, .str b => a == b
  | .boolean a, .boolean b => a == b
  | .nullv, .nullv => true
  | .undefined, .undefined => true
  | .obj i _, .obj j _ => i == j
  | _, _ => false

/-! ### Association-list helpers (JS plain objects keyed by strings,
insertion order preserved, as `Object.keys` iteration order for
non-numeric keys) -/

def alookup {α : Type} (l : List (String × α)) (k : String) : Option α :=
  match l with
  | [] => none
  | (k₁, v) :: rest => if k₁ = k then some v else alookup rest k

/-- JS property assignment `o[k] = v`: overwrite in place if the key
exists, otherwise append (insertion order). -/
def aset {α : Type} (l : List (String × α)) (k : String) (v : α) : List (String × α) :=
  match l with
  | [] => [(k, v)]
  | (k₁, v₁) :: rest =>
    if k₁ = k then (k₁, v) :: rest else (k₁, v₁) :: aset rest k v

/-- JS `delete o[k]`. -/
def adel {α : Type} (l : List (String × α)) (k : String) : List (String × α) :=
  match l with
  | [] => []
  | (k₁, v₁) :: rest => if k₁ = k then adel rest k else (k₁, v₁) :: adel rest k

/-! ### The schema model (`src/type.js`) -/

/-- Declared scalar kinds of the modelled field fragment.  The per-field
codec lives in `field.js`, which is not part of the provided source; the
fragment covers the kinds exercised by the specification's examples. -/
inductive FieldType where
  | uint32
  | boolTy
  | strTy
deriving DecidableEq, Repr

/-- A reflected field (`field.js` is not in the provided source; the
record holds the attributes `type.js` reads from a field: `name`, `id`,
the rule flags `required`/`repeated`/`map`, and the resolved
`defaultValue`). -/
structure Field where
  name : String
  id : Nat
  required : Bool
  repeated : Bool
  map : Bool
  ftype : FieldType
  defaultValue : JSValue
deriving DecidableEq, Repr

/-- Errors surfaced by the modelled operations (`throw Error(...)` sites
of `type.js`, plus the wire-primitive errors of the specification's
taxonomy).  `fuelOut` is an artifact of the fuelled decode loop and is
unreachable for the fuel the entry points supply. -/
inductive Err where
  | duplicateName (n : String)
  | duplicateId (id : Nat)
  | notMember
  | typeError
  | unsupportedWireType (id wt : Nat)
  | malformedWireFormat (pos limit : Nat)
  | bufferUnderrun
  | invalidUtf8
  | outOfModel
  | fuelOut
deriving DecidableEq, Repr

/-- Decidable equality for `Except` results (used to state and evaluate
concrete outcomes). -/
instance {e a : Type} [DecidableEq e] [DecidableEq a] : DecidableEq (Except e a)
  | .ok x, .ok y =>
    if h : x = y then .isTrue (h ▸ rfl) else .isFalse (fun hc => h (Except.ok.inj hc))
  | .error x, .error y =>
    if h : x = y then .isTrue (h ▸ rfl) else .isFalse (fun hc => h (Except.error.inj hc))
  | .ok _, .error _ => .isFalse (fun hc => Except.noConfusion hc)
  | .error _, .ok _ => .isFalse (fun hc => Except.noConfusion hc)

/-- State of a reflected message type (`function Type` constructor):
the field collection in insertion order, one-of and nested child names
(only their names matter to this core), and the three lazily memoized
caches `_fieldsById`, `_fieldNames`, `_prototype`. -/
structure MType where
  fields : List Field
  oneofs : List String
  nested : List String
  fieldsByIdCache : Option (List (Nat × Field))
  fieldNamesCache : Option (List String)
  protoCache : Option (List (String × JSValue))
deriving DecidableEq, Repr

/-- A freshly constructed type: everything empty, caches unset. -/
def MType.empty : MType :=
  { fields := [], oneofs := [], nested := [],
    fieldsByIdCache := none, fieldNamesCache := none, protoCache := none }

/-- Field lookup `this.fields[name]` (the `fields` object keyed by field
name, insertion order preserved). -/
def MType.fieldByName (t : MType) (n : String) : Option Field :=
  t.fields.find? (fun f => f.name == n)

/-- The `fieldNames` getter: memoized `Object.keys(this.fields)`. -/
def MType.fieldNames (t : MType) : List String × MType :=
  match t.fieldNamesCache with
  | some ns => (ns, t)
  | none =>
    let ns := t.fields.map Field.name
    (ns, { t with fieldNamesCache := some ns })

/-- Inner loop of the `fieldsById` getter: scan the names in insertion
order, failing with a duplicate-id error when a second field carries an
already seen id.  The accumulator mirrors the partially built
`this._fieldsById` object. -/
def buildFieldsById (t : MType) (names : List String)
    (acc : List (Nat × Field)) : List (Nat × Field) × Except Err (List (Nat × Field)) :=
  match names with
  | [] => (acc, .ok acc)
  | n :: rest =>
    match t.fieldByName n with
    | none => (acc, .error .typeError)
    | some f =>
      if (acc.find? (fun p => p.1 == f.id)).isSome then
        (acc, .error (.duplicateId f.id))
      else
        buildFieldsById t rest (acc ++ [(f.id, f)])

/-- The `fieldsById` getter: memoized; on a cache miss it builds the
id-keyed view, leaving the partially built object in the cache slot when
it throws (as the source's in-place mutation does). -/
def MType.fieldsById (t : MType) : Except Err (List (Nat × Field)) × MType :=
  match t.fieldsByIdCache with
  | some m => (.ok m, t)
  | none =>
    let (names, t₁) := t.fieldNames
    match buildFieldsById t₁ names [] with
    | (acc, .ok m) => (.ok m, { t₁ with fieldsByIdCache := some m })
    | (acc, .error e) => (.error e, { t₁ with fieldsByIdCache := some acc })

/-- `TypePrototype.exists`: a name is taken if it names a field, a nested
child, or a one-of. -/
def MType.existsName (t : MType) (n : String) : Bool :=
  (t.fieldByName n).isSome || t.nested.contains n || t.oneofs.contains n

/-- The kinds of children `TypePrototype.add` dispatches on
(`instanceof Field` / `instanceof OneOf` / everything else, which is
delegated to `NamespacePrototype.add`; for the latter only the name is
relevant here). -/
inductive AddObj where
  | field (f : Field)
  | oneof (n : String)
  | nestedChild (n : String)
deriving DecidableEq, Repr

def AddObj.name : AddObj → String
  | .field f => f.name
  | .oneof n => n
  | .nestedChild n => n

/-- `TypePrototype.add`: reject a duplicate name across the combined
namespaces, then insert a field (invalidating both derived caches), a
one-of, or a nested child.  `NamespacePrototype.add` is not in the
provided source; modelled from the spec: on success it appends the child
under its name. -/
def MType.add (t : MType) (o : AddObj) : Except Err MType :=
  if t.existsName o.name then .error (.duplicateName o.name)
  else match o with
    | .field f =>
      .ok { t with fields := t.fields ++ [f],
                   fieldsByIdCache := none, fieldNamesCache := none }
    | .oneof n => .ok { t with oneofs := t.oneofs ++ [n] }
    | .nestedChild n => .ok { t with nested := t.nested ++ [n] }

/-- `TypePrototype.remove` (Field branch): reject when the field is not
the current binding of its name, else delete it and invalidate both
derived caches. -/
def MType.removeField (t : MType) (f : Field) : Except Err MType :=
  if t.fieldByName f.name ≠ some f then .error .notMember
  else
    .ok { t with fields := t.fields.filter (fun g => g.name ≠ f.name),
                 fieldsByIdCache := none, fieldNamesCache := none }

/-! ### Message instances -/

/-- A dynamic message instance: own properties over a shared default
template (`Object.create(prototype)`); reading a field falls through the
own properties to the template, and an absent field reads as
`undefined`. -/
structure Msg where
  own : List (String × JSValue)
  proto : List (String × JSValue)
deriving DecidableEq, Repr

/-- Property read `message[name]` through the prototype chain. -/
def Msg.get (m : Msg) (n : String) : JSValue :=
  match alookup m.own n with
  | some v => v
  | none => (alookup m.proto n).getD .undefined

/-- Property write `message[name] = v` (always an own property). -/
def Msg.set (m : Msg) (n : String) (v : JSValue) : Msg :=
  { m with own := aset m.own n v }

/-- Default-template construction inside `create`: each field's resolved
default is placed on the shared prototype unless it is an object (objects
are mutable and must never be shared). -/
def buildProto (t : MType) : List String → List (String × JSValue) →
    Except Err (List (String × JSValue))
  | [], acc => .ok acc
  | n :: rest, acc =>
    match t.fieldByName n with
    | none => .error .typeError
    | some f =>
      if isObject f.defaultValue then buildProto t rest acc
      else buildProto t rest (aset acc n f.defaultValue)

/-- Instance-population loop of `create`: for each declared field,
`value = properties[name] || field.defaultValue`, materialized as an own
property iff the field is required, repeated or map-typed, or the value
is strictly unequal to the default, or the value is an object. -/
def createOwn (t : MType) (props : List (String × JSValue)) :
    List String → List (String × JSValue) → Except Err (List (String × JSValue))
  | [], acc => .ok acc
  | n :: rest, acc =>
    match t.fieldByName n with
    | none => .error .typeError
    | some f =>
      let supplied := (alookup props n).getD .undefined
      let value := if truthy supplied then supplied else f.defaultValue
      if f.required || f.repeated || f.map ||
         !jsStrictEq value f.defaultValue || isObject value then
        createOwn t props rest (aset acc n value)
      else
        createOwn t props rest acc

/-- `TypePrototype.create` without an explicit constructor: resolve
extensions (the model has no pending extensions, so this is the
identity), lazily build and cache the default template once, then derive
and populate a new instance.  It returns the updated type state alongside
the instance. -/
def MType.create (t : MType) (props : List (String × JSValue)) :
    Except Err (MType × Msg) :=
  let (names, t₁) := t.fieldNames
  match t₁.protoCache with
  | some p =>
    match createOwn t₁ props names [] with
    | .ok own => .ok (t₁, { own := own, proto := p })
    | .error e => .error e
  | none =>
    match buildProto t₁ names [] with
    | .error e => .error e
    | .ok p =>
      let t₂ := { t₁ with protoCache := some p }
      match createOwn t₂ props names [] with
      | .ok own => .ok (t₂, { own := own, proto := p })
      | .error e => .error e

/-! ### Wire primitives

Modelled from the spec: `reader.js` and `writer.js` are not part of the
provided source.  The model follows §4.3 of the specification: a reader
is a cursor over an immutable byte sequence; varints are base-128
little-endian with the high bit as continuation flag; reading past the
end fails with a buffer-underrun error. -/

/-- Base-128 varint encoding, fuelled to stay structurally recursive
(the fuel `n` always suffices since `n < 128 ^ (n + 1)`). -/
def varintEncodeAux : Nat → Nat → List Nat
  | 0, n => [n % 128]
  | fuel + 1, n =>
    if n < 128 then [n] else (n % 128 + 128) :: varintEncodeAux fuel (n / 128)

/-- Modelled from the spec: the writer's varint emission (§4.3, glossary:
"variable-length base-128 encoding of an unsigned integer"). -/
def varintEncode (n : Nat) : List Nat := varintEncodeAux n n

/-- Varint decoding on a byte list: returns the value and the number of
bytes consumed, `none` when the sequence ends inside a varint. -/
def varintDecode : List Nat → Option (Nat × Nat)
  | [] => none
  | b :: rest =>
    if b < 128 then some (b, 1)
    else
      match varintDecode rest with
      | some (v, k) => some (b % 128 + v * 128, k + 1)
      | none => none

/-- Modelled from the spec: the reader — a cursor (`pos`) over an
immutable byte sequence. -/
structure Reader where
  buf : List Nat
  pos : Nat
deriving DecidableEq, Repr

def Reader.len (r : Reader) : Nat := r.buf.length

/-- Modelled from the spec: reading one varint, advancing the cursor past
its encoded bytes; running past the end is a buffer underrun. -/
def Reader.varint (r : Reader) : Except Err (Nat × Reader) :=
  match varintDecode (r.buf.drop r.pos) with
  | some (v, k) => .ok (v, { r with pos := r.pos + k })
  | none => .error .bufferUnderrun

/-- Modelled from the spec: `skip(n)` with an explicit byte count. -/
def Reader.skipBytes (r : Reader) (n : Nat) : Except Err Reader :=
  if r.pos + n > r.len then .error .bufferUnderrun
  else .ok { r with pos := r.pos + n }

/-- Modelled from the spec: `skip()` without a count advances past
exactly one varint. -/
def Reader.skipVarint (r : Reader) : Except Err Reader :=
  match r.varint with
  | .ok (_, r') => .ok r'
  | .error e => .error e

/-- Modelled from the spec: reading `n` raw bytes. -/
def Reader.takeBytes (r : Reader) (n : Nat) : Except Err (List Nat × Reader) :=
  if r.pos + n > r.len then .error .bufferUnderrun
  else .ok ((r.buf.drop r.pos).take n, { r with pos := r.pos + n })

/-! ### UTF-8 (string payloads)

Modelled from the spec: strings travel as length-delimited byte runs
(§6); the byte encoding of the string codec in `field.js` is modelled as
UTF-8 over the string's code points. -/

def utf8EncodeChar (c : Nat) : List Nat :=
  if c < 128 then [c]
  else if c < 2048 then [192 + c / 64, 128 + c % 64]
  else if c < 65536 then [224 + c / 4096, 128 + c / 64 % 64, 128 + c % 64]
  else [240 + c / 262144, 128 + c / 4096 % 64, 128 + c / 64 % 64, 128 + c % 64]

def utf8Encode : List Nat → List Nat
  | [] => []
  | c :: cs => utf8EncodeChar c ++ utf8Encode cs

/-- Fuelled UTF-8 decoder (fuel: one unit per decoded character; the
byte length always suffices). -/
def utf8DecodeAux : Nat → List Nat → Option (List Nat)
  | 0, l => if l.isEmpty then some [] else none
  | fuel + 1, l =>
    match l with
    | [] => some []
    | b :: rest =>
      if b < 128 then (utf8DecodeAux fuel rest).map (b :: ·)
      else if b < 192 then none
      else if b < 224 then
        match rest with
        | b₂ :: rest₂ =>
          if 128 ≤ b₂ && b₂ < 192 then
            (utf8DecodeAux fuel rest₂).map (((b - 192) * 64 + (b₂ - 128)) :: ·)
          else none
        | _ => none
      else if b < 240 then
        match rest with
        | b₂ :: b₃ :: rest₃ =>
          if (128 ≤ b₂ && b₂ < 192) && (128 ≤ b₃ && b₃ < 192) then
            (utf8DecodeAux fuel rest₃).map
              (((b - 224) * 4096 + (b₂ - 128) * 64 + (b₃ - 128)) :: ·)
          else none
        | _ => none
      else if b < 248 then
        match rest with
        | b₂ :: b₃ :: b₄ :: rest₄ =>
          if ((128 ≤ b₂ && b₂ < 192) && (128 ≤ b₃ && b₃ < 192)) &&
             (128 ≤ b₄ && b₄ < 192) then
            (utf8DecodeAux fuel rest₄).map
              (((b - 240) * 262144 + (b₂ - 128) * 4096 +
                (b₃ - 128) * 64 + (b₄ - 128)) :: ·)
          else none
        | _ => none
      else none

def utf8Decode (l : List Nat) : Option (List Nat) := utf8DecodeAux l.length l

/-! ### Per-field codec

Modelled from the spec: `field.js` ("knows how to encode/decode its own
value using the Wire Primitives") is not part of the provided source.
Each field writes its tag `(id << 3) | wireType` as a varint followed by
its payload (§6); values outside the modelled fragment are rejected. -/

def fieldWireType : FieldType → Nat
  | .uint32 => 0
  | .boolTy => 0
  | .strTy => 2

/-- Modelled from the spec: a field's own encoder (tag then payload;
uint32 and bool as varints, strings as length-delimited UTF-8). -/
def fieldEncode (f : Field) (v : JSValue) : Except Err (List Nat) :=
  let tag := varintEncode (f.id * 8 + fieldWireType f.ftype)
  match f.ftype, v with
  | .uint32, .num n =>
    if 0 ≤ n ∧ n < 4294967296 then .ok (tag ++ varintEncode n.toNat)
    else .error .outOfModel
  | .boolTy, .boolean b => .ok (tag ++ varintEncode (if b then 1 else 0))
  | .strTy, .str s =>
    if s.all (· < 1114112) then
      let bytes := utf8Encode s
      .ok (tag ++ varintEncode bytes.length ++ bytes)
    else .error .outOfModel
  | _, _ => .error .outOfModel

/-- Modelled from the spec: a field's own decoder at the wire position
just past the tag. -/
def fieldDecode (f : Field) (r : Reader) : Except Err (JSValue × Reader) :=
  match f.ftype with
  | .uint32 =>
    match r.varint with
    | .ok (v, r') => .ok (.num ((v % 4294967296 : Nat) : Int), r')
    | .error e => .error e
  | .boolTy =>
    match r.varint with
    | .ok (v, r') => .ok (.boolean (v != 0), r')
    | .error e => .error e
  | .strTy =>
    match r.varint with
    | .error e => .error e
    | .ok (len, r₁) =>
      match r₁.takeBytes len with
      | .error e => .error e
      | .ok (bytes, r₂) =>
        match utf8Decode bytes with
        | some s => .ok (.str s, r₂)
        | none => .error .invalidUtf8

/-! ### `TypePrototype.encode` / `TypePrototype.decode` -/

/-- The encode loop: iterate `fieldNames` in declaration order; a field
is written iff it is required or its current value is loosely unequal
(`!=`) to the field's default; the byte-level write is delegated to the
field's own encoder, appended to the writer. -/
def encodeLoop (t : MType) (m : Msg) : List String → List Nat →
    Except Err (List Nat)
  | [], w => .ok w
  | n :: rest, w =>
    match t.fieldByName n with
    | none => .error .typeError
    | some f =>
      if f.required || !jsEq (m.get n) f.defaultValue then
        match fieldEncode f (m.get n) with
        | .ok bytes => encodeLoop t m rest (w ++ bytes)
        | .error e => .error e
      else encodeLoop t m rest w

/-- `TypePrototype.encode`: resolve extensions (identity in the model),
then run the encode loop over `fieldNames`; returns the writer's bytes
and the updated type state. -/
def MType.encode (t : MType) (m : Msg) : Except Err (List Nat) × MType :=
  let (names, t₁) := t.fieldNames
  (encodeLoop t₁ m names [], t₁)

/-- The decode loop of `TypePrototype.decode`, fuelled (the entry point
supplies fuel `limit - pos + 1`, which always suffices because every
iteration consumes at least the one tag byte).  While `pos < limit`: read
a tag varint and split it; a known field id dispatches to the field's own
decoder and stores the value (repeated-field appending lies outside the
modelled value fragment); an unknown id skips by wire type — one varint
for 0, eight bytes for 1, a varint-read length for 2, four bytes for 5 —
and any other wire-type code fails with an unsupported-wire-type
error. -/
def decodeLoop (byId : List (Nat × Field)) (limit : Nat) :
    Nat → Msg → Reader → Except Err (Msg × Reader)
  | 0, m, r => if r.pos < limit then .error .fuelOut else .ok (m, r)
  | fuel + 1, m, r =>
    if r.pos < limit then
      match r.varint with
      | .error e => .error e
      | .ok (v, r₁) =>
        let id := v / 8
        let wt := v % 8
        match byId.find? (fun p => p.1 == id) with
        | some (_, f) =>
          match fieldDecode f r₁ with
          | .error e => .error e
          | .ok (val, r₂) =>
            if f.repeated then .error .outOfModel
            else decodeLoop byId limit fuel (m.set f.name val) r₂
        | none =>
          let skipped : Except Err Reader :=
            match wt with
            | 0 => r₁.skipVarint
            | 1 => r₁.skipBytes 8
            | 2 =>
              match r₁.varint with
              | .ok (len, r₂) => r₂.skipBytes len
              | .error e => .error e
            | 5 => r₁.skipBytes 4
            | _ => .error (.unsupportedWireType id wt)
          match skipped with
          | .ok r₂ => decodeLoop byId limit fuel m r₂
          | .error e => .error e
    else .ok (m, r)

/-- The decode cursor limit: end of buffer, or `pos + length` when an
explicit length is given. -/
def decodeLimit (r : Reader) : Option Nat → Nat
  | none => r.len
  | some l => r.pos + l

/-- `TypePrototype.decode` from a reader: establish the limit (end of
buffer, or `pos + length` when a length is given), create a fresh
instance, build `fieldsById`, run the read loop, and finally demand that
the cursor landed exactly on the limit. -/
def MType.decode (t : MType) (r : Reader) (length? : Option Nat) :
    Except Err (Msg × Reader) × MType :=
  let limit := decodeLimit r length?
  match t.create [] with
  | .error e => (.error e, t)
  | .ok (t₁, msg) =>
    match t₁.fieldsById with
    | (.error e, t₂) => (.error e, t₂)
    | (.ok byId, t₂) =>
      match decodeLoop byId limit (limit - r.pos + 1) msg r with
      | .error e => (.error e, t₂)
      | .ok (m, r') =>
        if r'.pos = limit then (.ok (m, r'), t₂)
        else (.error (.malformedWireFormat r'.pos limit), t₂)

/-! ### Field ownership across types

`TypePrototype.add` re-parents a field that already belongs to another
type (`if (object.parent) object.parent.remove(object)`), and
`TypePrototype.remove` clears the back-reference (`object.message =
null`).  To reason about this aliasing, the object graph is embedded as a
world: field objects and type objects are identified by numeric handles;
each type owns an insertion-ordered list of field handles; each field
carries its (single) owning-type back-reference.  The field's `parent`
and `message` back-references are identified, following the data model of
the spec ("owning Type (non-owning back-reference)"). -/

/-- Natural-number-keyed association lists (object handles). -/
def nlookup {α : Type} (l : List (Nat × α)) (k : Nat) : Option α :=
  match l with
  | [] => none
  | (k₁, v) :: rest => if k₁ = k then some v else nlookup rest k

def nset {α : Type} (l : List (Nat × α)) (k : Nat) (v : α) : List (Nat × α) :=
  match l with
  | [] => [(k, v)]
  | (k₁, v₁) :: rest =>
    if k₁ = k then (k₁, v) :: rest else (k₁, v₁) :: nset rest k v

/-- The object graph: field handle → declared name, field handle →
current owning type (absent = no parent), type handle → owned field
handles in insertion order, type handle → names of its other children
(nested types and one-ofs, for the duplicate-name check). -/
structure World where
  fname : List (Nat × String)
  fparent : List (Nat × Nat)
  towned : List (Nat × List Nat)
  tother : List (Nat × List String)
deriving DecidableEq, Repr

def World.nameOf (w : World) (fid : Nat) : Option String := nlookup w.fname fid

def World.parentOf (w : World) (fid : Nat) : Option Nat := nlookup w.fparent fid

def World.owned (w : World) (tid : Nat) : List Nat :=
  (nlookup w.towned tid).getD []

def World.otherNames (w : World) (tid : Nat) : List String :=
  (nlookup w.tother tid).getD []

/-- `TypePrototype.exists` in the world: the name is bound by an owned
field or another child kind. -/
def World.existsIn (w : World) (tid : Nat) (n : String) : Bool :=
  ((w.owned tid).find? (fun g => w.nameOf g == some n)).isSome ||
  (w.otherNames tid).contains n

/-- `TypePrototype.remove` (Field branch) in the world: the current
binding of the field's name must be this very field object; deleting it
clears the entries of that name and nulls the back-reference. -/
def World.removeF (w : World) (tid : Nat) (fid : Nat) : Except Err World :=
  match w.nameOf fid with
  | none => .error .typeError
  | some n =>
    if ((w.owned tid).find? (fun g => w.nameOf g == some n)) ≠ some fid then
      .error .notMember
    else
      .ok { w with
        towned := nset w.towned tid
          ((w.owned tid).filter (fun g => w.nameOf g ≠ some n)),
        fparent := (w.fparent.filter (fun p => p.1 ≠ fid)) }

/-- `TypePrototype.add` (Field branch) in the world: duplicate-name check
against the target type, then removal from the current parent if any,
then insertion and setting of the back-reference. -/
def World.addF (w : World) (tid : Nat) (fid : Nat) : Except Err World :=
  match w.nameOf fid with
  | none => .error .typeError
  | some n =>
    if w.existsIn tid n then .error (.duplicateName n)
    else
      match
        match w.parentOf fid with
        | some p => w.removeF p fid
        | none => .ok w
      with
      | .error e => .error e
      | .ok w₁ =>
        .ok { w₁ with
          towned := nset w₁.towned tid (w₁.owned tid ++ [fid]),
          fparent := nset w₁.fparent fid tid }

/-- Single-ownership invariant of the object graph: every owned field's
back-reference points at its owner. -/
def World.inv (w : World) : Prop :=
  ∀ t g, g ∈ w.owned t → w.parentOf g = some t

/-- Decidable (executable) form of `World.inv`, quantifying over the
table entries. -/
def World.invB (w : World) : Bool :=
  w.towned.all (fun p => (w.owned p.1).all (fun g => w.parentOf g == some p.1))

/-! ### Canonical cache contents and typed-value predicates
(used to state coherence hypotheses of the claims) -/

/-- The field names in declaration order (value of a coherent
`_fieldNames` cache). -/
def canonNames (t : MType) : List String := t.fields.map Field.name

/-- The by-id view in declaration order (value of a coherent
`_fieldsById` cache for duplicate-free ids). -/
def canonById (t : MType) : List (Nat × Field) :=
  t.fields.map (fun f => (f.id, f))

/-- The default template contents: every non-object resolved default
(value of a coherent `_prototype` cache). -/
def canonProto (t : MType) : List (String × JSValue) :=
  t.fields.filterMap
    (fun f => if isObject f.defaultValue then none else some (f.name, f.defaultValue))

/-- Cache coherence: each memoized view is either unset or holds exactly
what a rebuild from the current field set would produce.  Every state
reachable from a fresh type satisfies this. -/
def cachesOk (t : MType) : Prop :=
  (t.fieldNamesCache = none ∨ t.fieldNamesCache = some (canonNames t)) ∧
  (t.fieldsByIdCache = none ∨ t.fieldsByIdCache = some (canonById t)) ∧
  (t.protoCache = none ∨ t.protoCache = some (canonProto t))

/-- Well-typedness of a JS value for a declared field kind (the modelled
fragment of type-conformant messages). -/
def typedValB (ft : FieldType) (v : JSValue) : Bool :=
  match ft, v with
  | .uint32, .num n => decide (0 ≤ n) && decide (n < 4294967296)
  | .boolTy, .boolean _ => true
  | .strTy, .str s => s.all (· < 1114112)
  | _, _ => false

/-- The encode loop's emission test for one field: required, or current
value loosely unequal to the default. -/
def writeCond (m : Msg) (f : Field) : Bool :=
  f.required || !jsEq (m.get f.name) f.defaultValue

/-- The effective value `create` works with for one field:
`properties[name] || field.defaultValue`. -/
def effVal (props : List (String × JSValue)) (f : Field) : JSValue :=
  let supplied := (alookup props f.name).getD .undefined
  if truthy supplied then supplied else f.defaultValue

/-- The materialization test of `create` for one field (the amended form
of the condition: note the effective value replaces a falsy supplied
value by the default before the strict comparison). -/
def materializeCond (props : List (String × JSValue)) (f : Field) : Bool :=
  f.required || f.repeated || f.map ||
  !jsStrictEq (effVal props f) f.defaultValue || isObject (effVal props f)

/-- The own-property list `create` materializes (canonical form of the
population loop for duplicate-free field names). -/
def canonOwn (props : List (String × JSValue)) (fields : List Field) :
    List (String × JSValue) :=
  fields.filterMap
    (fun f => if materializeCond props f then some (f.name, effVal props f) else none)

/-- The default template instance `create` derives instances from: the
cached one when present, else the canonical rebuild. -/
def protoUsed (t : MType) : List (String × JSValue) :=
  match t.protoCache with
  | some p => p
  | none => canonProto t

/-- "The caller supplied a value strictly unequal to the field's
default" — the literal reading of the materialization clause, without
the falsy-value substitution. -/
def suppliedUneq (props : List (String × JSValue)) (f : Field) : Bool :=
  match alookup props f.name with
  | some v => !jsStrictEq v f.defaultValue
  | none => false

/-- Concatenation of encoded field blocks. -/
def concatAll : List (List Nat) → List Nat
  | [] => []
  | b :: bs => b ++ concatAll bs

/-- One decode-loop assignment per written field, in order. -/
def applyAll (m : Msg) : List (Field × JSValue × List Nat) → Msg
  | [] => m
  | (f, v, _) :: rest => applyAll (m.set f.name v) rest

/-! ### Concrete schemas for witnesses (the specification's end-to-end
example and small variations) -/

/-- `id`: required uint32, field 1 (spec §8 example). -/
def exFieldId : Field :=
  { name := "id", id := 1, required := true, repeated := false,
    map := false, ftype := .uint32, defaultValue := .num 0 }

/-- `name`: optional string, field 2 (spec §8 example). -/
def exFieldName : Field :=
  { name := "name", id := 2, required := false, repeated := false,
    map := false, ftype := .strTy, defaultValue := .str [] }

/-- The spec §8 example type. -/
def exType : MType := { MType.empty with fields := [exFieldId, exFieldName] }

/-- An optional uint32 field with the non-zero default 5 (for the falsy
supplied-value behavior of `create`). -/
def exFieldX : Field :=
  { name := "x", id := 1, required := false, repeated := false,
    map := false, ftype := .uint32, defaultValue := .num 5 }

def exTypeX : MType := { MType.empty with fields := [exFieldX] }

/-- Two fields with distinct names and the same id 1. -/
def exFieldA : Field :=
  { name := "a", id := 1, required := false, repeated := false,
    map := false, ftype := .uint32, defaultValue := .num 0 }

def exFieldB : Field :=
  { name := "b", id := 1, required := false, repeated := false,
    map := false, ftype := .uint32, defaultValue := .num 0 }

/-- A message instance of the example type carrying `{id: 7}` with
`name` left at its default (visible through the template). -/
def exMsg : Msg :=
  { own := [("id", JSValue.num 7)],
    proto := [("id", JSValue.num 0), ("name", JSValue.str [])] }

/-- A world with field 1 (named "f") owned by type 1, and an empty
type 2. -/
def exWorld : World :=
  { fname := [(1, "f")], fparent := [(1, 1)],
    towned := [(1, [1]), (2, [])], tother := [] }

/-- The state after adding `exFieldA` to a fresh type. -/
def exTypeA : MType := { MType.empty with fields := [exFieldA] }

/-- The two same-id fields, added in order. -/
def exTypeDup : MType := { MType.empty with fields := [exFieldA, exFieldB] }

/-! ## Helper lemmas -/

theorem alookup_aset_self {α : Type} (l : List (String × α)) (k : String) (v : α) :
    alookup (aset l k v) k = some v := by
  induction l with
  | nil => simp [aset, alookup]
  | cons h rest ih =>
    obtain ⟨k₁, v₁⟩ := h
    by_cases hk : k₁ = k
    · subst hk; simp [aset, alookup]
    · simp [aset, alookup, hk, ih]

theorem alookup_aset_ne {α : Type} (l : List (String × α)) (k k' : String) (v : α)
    (h : k' ≠ k) : alookup (aset l k v) k' = alookup l k' := by
  induction l with
  | nil =>
    simp only [aset, alookup]
    rw [if_neg (fun hh => h hh.symm)]
  | cons hd rest ih =>
    obtain ⟨k₁, v₁⟩ := hd
    by_cases hk : k₁ = k
    · subst hk
      simp only [aset, if_pos rfl, alookup]
      rw [if_neg (fun hh => h hh.symm), if_neg (fun hh => h hh.symm)]
    · simp only [aset, if_neg hk, alookup]
      by_cases hk' : k₁ = k'
      · simp [hk']
      · simp [hk', ih]

theorem aset_append {α : Type} (l : List (String × α)) (k : String) (v : α)
    (h : alookup l k = none) : aset l k v = l ++ [(k, v)] := by
  induction l with
  | nil => simp [aset]
  | cons hd rest ih =>
    obtain ⟨k₁, v₁⟩ := hd
    by_cases hk : k₁ = k
    · simp [alookup, hk] at h
    · simp only [alookup, if_neg hk] at h
      simp [aset, hk, ih h]

theorem fieldByName_of_nodup (fields : List Field) (f : Field)
    (hnd : (fields.map Field.name).Nodup) (hmem : f ∈ fields) :
    fields.find? (fun g => g.name == f.name) = some f := by
  induction fields with
  | nil => cases hmem
  | cons g rest ih =>
    simp only [List.map_cons, List.nodup_cons] at hnd
    rcases List.mem_cons.mp hmem with h | h
    · subst h; simp [List.find?]
    · have hne : g.name ≠ f.name := by
        intro he
        exact hnd.1 (he ▸ List.mem_map_of_mem Field.name h)
      simp only [List.find?]
      rw [show (g.name == f.name) = false from beq_eq_false_iff_ne.mpr hne]
      exact ih hnd.2 h

theorem find?_mem_of_isSome {α : Type} (l : List α) (p : α → Bool) (x : α)
    (hmem : x ∈ l) (hx : p x = true) : (l.find? p).isSome := by
  induction l with
  | nil => cases hmem
  | cons g rest ih =>
    simp only [List.find?]
    rcases List.mem_cons.mp hmem with h | h
    · subst h; simp [hx]
    · cases hpg : p g
      · simpa using ih h
      · simp

/-! ## C8: `add` fails with a duplicate-name error exactly when the name
is taken in one of the three combined namespaces -/

/-- C8: for every type state and every child (field, one-of or nested),
`add` fails with a DuplicateNameError exactly when a child of the same
name already exists among the type's fields, its one-ofs, or its nested
children; otherwise it succeeds, so one name is never bound to two
members. -/
theorem add_fails_iff_name_taken (t : MType) (o : AddObj) :
    (t.add o = .error (.duplicateName o.name) ↔
      ((t.fieldByName o.name).isSome = true ∨
       t.nested.contains o.name = true ∨
       t.oneofs.contains o.name = true)) ∧
    (¬((t.fieldByName o.name).isSome = true ∨
       t.nested.contains o.name = true ∨
       t.oneofs.contains o.name = true) →
      ∃ t', t.add o = .ok t') := by
  have hex : t.existsName o.name =
      ((t.fieldByName o.name).isSome || t.nested.contains o.name ||
        t.oneofs.contains o.name) := rfl
  by_cases h : t.existsName o.name = true
  · constructor
    · constructor
      · intro _
        rw [hex] at h
        simpa [Bool.or_eq_true, or_assoc] using h
      · intro _
        simp [MType.add, h]
    · intro hcontra
      rw [hex] at h
      exact absurd (by simpa [Bool.or_eq_true, or_assoc] using h) hcontra
  · have h' : t.existsName o.name = false := by
      cases he : t.existsName o.name
      · rfl
      · exact absurd he h
    constructor
    · constructor
      · intro hadd
        exfalso
        cases o <;> simp [MType.add, h'] at hadd
      · intro hcond
        exfalso
        rw [hex] at h'
        simp only [Bool.or_eq_false_iff] at h'
        rcases hcond with hc | hc | hc
        · rw [h'.1.1] at hc; cases hc
        · rw [h'.1.2] at hc; cases hc
        · rw [h'.2] at hc; cases hc
    · intro _
      cases o <;> simp [MType.add, h']

/-! ## The `fieldsById` rebuild (shared by C5 and C7) -/

theorem buildFieldsById_ok (t : MType) (gs : List Field) :
    ∀ acc,
    (∀ g ∈ gs, t.fieldByName g.name = some g) →
    (acc.map Prod.fst ++ gs.map Field.id).Nodup →
    buildFieldsById t (gs.map Field.name) acc =
      (acc ++ gs.map (fun g => (g.id, g)), .ok (acc ++ gs.map (fun g => (g.id, g)))) := by
  induction gs with
  | nil => intro acc _ _; simp [buildFieldsById]
  | cons g rest ih =>
    intro acc hlook hnd
    have hg : t.fieldByName g.name = some g := hlook g (List.mem_cons_self _ _)
    have hid : g.id ∉ acc.map Prod.fst := by
      rw [List.nodup_append] at hnd
      intro hmem
      exact hnd.2.2 hmem (by simp)
    have hfind : acc.find? (fun p => p.1 == g.id) = none := by
      rw [List.find?_eq_none]
      intro x hx
      simp only [beq_iff_eq]
      intro he
      exact hid (he ▸ List.mem_map_of_mem Prod.fst hx)
    have hnd' : ((acc ++ [(g.id, g)]).map Prod.fst ++ rest.map Field.id).Nodup := by
      simpa [List.append_assoc] using hnd
    simp only [List.map_cons, buildFieldsById, hg, hfind, Option.isSome_none,
      Bool.false_eq_true, if_false]
    rw [ih (acc ++ [(g.id, g)])
      (fun g' hg' => hlook g' (List.mem_cons_of_mem _ hg')) hnd']
    simp [List.append_assoc]

theorem fieldsById_ok (t : MType)
    (hnames : (canonNames t).Nodup) (hids : (t.fields.map Field.id).Nodup)
    (hc : t.fieldsByIdCache = none ∨ t.fieldsByIdCache = some (canonById t))
    (hcn : t.fieldNamesCache = none ∨ t.fieldNamesCache = some (canonNames t)) :
    ∃ t', t.fieldsById = (.ok (canonById t), t') := by
  have hlook : ∀ g ∈ t.fields, t.fieldByName g.name = some g := by
    intro g hg
    exact fieldByName_of_nodup t.fields g hnames hg
  have hb := buildFieldsById_ok t t.fields [] hlook (by simpa using hids)
  simp only [List.nil_append] at hb
  rcases hc with hc | hc
  · rcases hcn with hcn | hcn
    · refine ⟨{ t with fieldNamesCache := some (canonNames t), fieldsByIdCache := some (canonById t) }, ?_⟩
      simp only [MType.fieldsById, hc, MType.fieldNames, hcn]
      have hb' : buildFieldsById
          { t with fieldsByIdCache := none,
                   fieldNamesCache := some (canonNames t) }
          (t.fields.map Field.name) [] = (canonById t, .ok (canonById t)) := by
        have := buildFieldsById_ok
          { t with fieldsByIdCache := none,
                   fieldNamesCache := some (canonNames t) }
          t.fields [] hlook (by simpa using hids)
        simpa [canonById] using this
      simp only [canonNames] at hb' ⊢
      rw [hb']
    · refine ⟨{ t with fieldsByIdCache := some (canonById t) }, ?_⟩
      simp only [MType.fieldsById, hc, MType.fieldNames, hcn]
      have hb' : buildFieldsById t (t.fields.map Field.name) [] =
          (canonById t, .ok (canonById t)) := by simpa [canonById] using hb
      simp only [canonNames] at hb' ⊢
      rw [hb']
  · exact ⟨t, by simp [MType.fieldsById, hc]⟩

/-! ## C7: add/remove invalidate the derived caches -/

/-- C7: a successful `add` of a field leaves both derived caches cleared,
and the immediately rebuilt `fieldsById` view (for duplicate-free names
and ids) succeeds — no stale duplicate-id error — and contains the new
field; a successful `remove` also clears both caches, and the field's
name no longer appears in `fieldNames`. -/
theorem add_remove_invalidate_caches (t : MType) (f : Field) :
    (∀ t', t.add (.field f) = .ok t' →
      t'.fieldsByIdCache = none ∧ t'.fieldNamesCache = none ∧
      ((canonNames t').Nodup → (t'.fields.map Field.id).Nodup →
        ∃ t'', t'.fieldsById = (.ok (canonById t'), t'') ∧
          (f.id, f) ∈ canonById t')) ∧
    (∀ t', t.removeField f = .ok t' →
      t'.fieldsByIdCache = none ∧ t'.fieldNamesCache = none ∧
      f.name ∉ (t'.fieldNames).1) := by
  constructor
  · intro t' hadd
    by_cases hex : t.existsName f.name = true
    · simp [MType.add, hex, AddObj.name] at hadd
    · have hex' : t.existsName f.name = false := by
        cases he : t.existsName f.name
        · rfl
        · exact absurd he hex
      simp only [MType.add, AddObj.name, hex', Bool.false_eq_true, if_false,
        Except.ok.injEq] at hadd
      subst hadd
      refine ⟨rfl, rfl, ?_⟩
      intro hnames hids
      obtain ⟨t'', ht''⟩ := fieldsById_ok _ hnames hids (Or.inl rfl) (Or.inl rfl)
      exact ⟨t'', ht'', by
        simp only [canonById]
        exact List.mem_map_of_mem _ (by simp)⟩
  · intro t' hrem
    by_cases hmem : t.fieldByName f.name = some f
    · simp only [MType.removeField, hmem, ne_eq, not_true_eq_false, if_false,
        Except.ok.injEq] at hrem
      subst hrem
      refine ⟨rfl, rfl, ?_⟩
      simp only [MType.fieldNames]
      intro hcontra
      simp only [List.mem_map] at hcontra
      obtain ⟨g, hg, hgname⟩ := hcontra
      rw [List.mem_filter] at hg
      have := hg.2
      simp only [ne_eq, decide_eq_true_eq] at this
      exact this hgname
    · simp [MType.removeField, hmem] at hrem

/-- C8 (witness): adding the field `a` to a type already owning a field
named `a` fails with the duplicate-name error; adding it to a fresh type
succeeds. -/
theorem add_fails_iff_name_taken_witness :
    exTypeA.add (.field exFieldA) =
      .error (.duplicateName (AddObj.field exFieldA).name) ∧
    (∃ t', MType.empty.add (.field exFieldA) = .ok t') := by
  refine ⟨?_, ?_⟩
  · exact (add_fails_iff_name_taken exTypeA (.field exFieldA)).1.mpr (by decide)
  · exact (add_fails_iff_name_taken MType.empty (.field exFieldA)).2 (by decide)

/-- C7 (witness): after adding the field `a` both caches are clear and
the rebuilt by-id view contains it; after removing it the name is gone
from `fieldNames`. -/
theorem add_remove_invalidate_caches_witness :
    (exTypeA.fieldsByIdCache = none ∧ exTypeA.fieldNamesCache = none ∧
      ((canonNames exTypeA).Nodup → (exTypeA.fields.map Field.id).Nodup →
        ∃ t'', exTypeA.fieldsById = (.ok (canonById exTypeA), t'') ∧
          (exFieldA.id, exFieldA) ∈ canonById exTypeA)) ∧
    (MType.empty.fieldsByIdCache = none ∧ MType.empty.fieldNamesCache = none ∧
      exFieldA.name ∉ (MType.empty.fieldNames).1) := by
  refine ⟨?_, ?_⟩
  · exact (add_remove_invalidate_caches MType.empty exFieldA).1 exTypeA (by decide)
  · exact (add_remove_invalidate_caches exTypeA exFieldA).2 MType.empty (by decide)

/-! ## The `create` path (shared by C1, C5, C6, C9) -/

theorem alookup_append_right {α : Type} (l₁ l₂ : List (String × α)) (k : String)
    (h : alookup l₁ k = none) : alookup (l₁ ++ l₂) k = alookup l₂ k := by
  induction l₁ with
  | nil => simp [alookup]
  | cons hd rest ih =>
    obtain ⟨k₁, v₁⟩ := hd
    by_cases hk : k₁ = k
    · simp [alookup, hk] at h
    · simp only [alookup, if_neg hk] at h
      simp only [List.cons_append, alookup, if_neg hk]
      exact ih h

theorem alookup_filterMap_not_mem (gs : List Field)
    (h : Field → Option (String × JSValue))
    (hshape : ∀ g, ∀ p ∈ h g, p.1 = g.name)
    (k : String) (hk : k ∉ gs.map Field.name) :
    alookup (gs.filterMap h) k = none := by
  induction gs with
  | nil => simp [alookup]
  | cons g rest ih =>
    simp only [List.map_cons, List.mem_cons, not_or] at hk
    rw [List.filterMap_cons]
    cases hg : h g with
    | none => exact ih hk.2
    | some p =>
      have hp : p.1 = g.name := hshape g p (by simp [hg])
      obtain ⟨pk, pv⟩ := p
      simp only at hp
      simp only [alookup]
      rw [if_neg (by rw [hp]; exact fun he => hk.1 he.symm)]
      exact ih hk.2

theorem alookup_filterMap_field (gs : List Field) (p : Field → Bool)
    (v : Field → JSValue) (f : Field)
    (hnd : (gs.map Field.name).Nodup) (hf : f ∈ gs) :
    alookup (gs.filterMap (fun g => if p g then some (g.name, v g) else none))
        f.name = if p f then some (v f) else none := by
  induction gs with
  | nil => cases hf
  | cons g rest ih =>
    simp only [List.map_cons, List.nodup_cons] at hnd
    rw [List.filterMap_cons]
    rcases List.mem_cons.mp hf with h | h
    · subst h
      have hnotin : f.name ∉ rest.map Field.name := hnd.1
      cases hp : p f
      · simp only [Bool.false_eq_true, if_false]
        exact alookup_filterMap_not_mem rest _
          (by
            intro g q hq
            split at hq
            · simp only [Option.mem_def, Option.some.injEq] at hq
              cases hq; rfl
            · simp at hq) _ hnotin
      · simp only [if_true, alookup, if_pos rfl]
    · have hne : g.name ≠ f.name := by
        intro he
        exact hnd.1 (he ▸ List.mem_map_of_mem Field.name h)
      cases hp : p g
      · simp only [Bool.false_eq_true, if_false]
        exact ih hnd.2 h
      · simp only [if_true, alookup]
        rw [if_neg hne]
        exact ih hnd.2 h

theorem buildProto_run (t : MType) (gs : List Field) :
    ∀ acc,
    (∀ g ∈ gs, t.fieldByName g.name = some g) →
    (∀ g ∈ gs, alookup acc g.name = none) →
    (gs.map Field.name).Nodup →
    buildProto t (gs.map Field.name) acc =
      .ok (acc ++ gs.filterMap
        (fun f => if isObject f.defaultValue then none
                  else some (f.name, f.defaultValue))) := by
  induction gs with
  | nil => intro acc _ _ _; simp [buildProto]
  | cons g rest ih =>
    intro acc hlook hdisj hnd
    simp only [List.map_cons, List.nodup_cons] at hnd
    have hg := hlook g (List.mem_cons_self _ _)
    simp only [List.map_cons, buildProto, hg]
    rw [List.filterMap_cons]
    cases ho : isObject g.defaultValue
    · simp only [ho, Bool.false_eq_true, if_false]
      have hacc : alookup acc g.name = none := hdisj g (List.mem_cons_self _ _)
      rw [aset_append acc g.name g.defaultValue hacc]
      rw [ih (acc ++ [(g.name, g.defaultValue)])
        (fun g' h => hlook g' (List.mem_cons_of_mem _ h))
        (by
          intro g' h
          rw [alookup_append_right _ _ _ (hdisj g' (List.mem_cons_of_mem _ h))]
          have hne : g.name ≠ g'.name := by
            intro he
            exact hnd.1 (he ▸ List.mem_map_of_mem Field.name h)
          simp only [alookup]
          rw [if_neg hne])
        hnd.2]
      simp [List.append_assoc]
    · simp only [ho, if_true]
      exact ih acc (fun g' h => hlook g' (List.mem_cons_of_mem _ h))
        (fun g' h => hdisj g' (List.mem_cons_of_mem _ h)) hnd.2

theorem createOwn_run (t : MType) (props : List (String × JSValue))
    (gs : List Field) :
    ∀ acc,
    (∀ g ∈ gs, t.fieldByName g.name = some g) →
    (∀ g ∈ gs, alookup acc g.name = none) →
    (gs.map Field.name).Nodup →
    createOwn t props (gs.map Field.name) acc = .ok (acc ++ canonOwn props gs) := by
  induction gs with
  | nil => intro acc _ _ _; simp [createOwn, canonOwn]
  | cons g rest ih =>
    intro acc hlook hdisj hnd
    simp only [List.map_cons, List.nodup_cons] at hnd
    have hg := hlook g (List.mem_cons_self _ _)
    simp only [List.map_cons, createOwn, hg]
    have hcond : (g.required || g.repeated || g.map ||
        !jsStrictEq (if truthy ((alookup props g.name).getD .undefined)
            then (alookup props g.name).getD .undefined else g.defaultValue)
          g.defaultValue ||
        isObject (if truthy ((alookup props g.name).getD .undefined)
            then (alookup props g.name).getD .undefined else g.defaultValue)) =
        materializeCond props g := by
      simp [materializeCond, effVal]
    simp only [canonOwn, List.filterMap_cons]
    rw [hcond]
    cases hm : materializeCond props g
    · simp only [Bool.false_eq_true, if_false]
      exact ih acc (fun g' h => hlook g' (List.mem_cons_of_mem _ h))
        (fun g' h => hdisj g' (List.mem_cons_of_mem _ h)) hnd.2
    · simp only [if_true]
      have hval : (if truthy ((alookup props g.name).getD .undefined)
          then (alookup props g.name).getD .undefined else g.defaultValue) =
          effVal props g := by simp [effVal]
      rw [hval]
      have hacc : alookup acc g.name = none := hdisj g (List.mem_cons_self _ _)
      rw [aset_append acc g.name (effVal props g) hacc]
      rw [ih (acc ++ [(g.name, effVal props g)])
        (fun g' h => hlook g' (List.mem_cons_of_mem _ h))
        (by
          intro g' h
          rw [alookup_append_right _ _ _ (hdisj g' (List.mem_cons_of_mem _ h))]
          have hne : g.name ≠ g'.name := by
            intro he
            exact hnd.1 (he ▸ List.mem_map_of_mem Field.name h)
          simp only [alookup]
          rw [if_neg hne])
        hnd.2]
      simp [List.append_assoc, canonOwn]

theorem jsStrictEq_eq_of_not_obj (x y : JSValue)
    (h : jsStrictEq x y = true) (hx : isObject x = false) : x = y := by
  cases x <;> cases y <;> simp_all [jsStrictEq, isObject]

theorem create_spec (t : MType) (props : List (String × JSValue))
    (hnames : (canonNames t).Nodup)
    (hcn : t.fieldNamesCache = none ∨ t.fieldNamesCache = some (canonNames t)) :
    t.create props =
      .ok ({ t with fieldNamesCache := some (canonNames t), protoCache := some (protoUsed t) },
           { own := canonOwn props t.fields, proto := protoUsed t }) := by
  obtain ⟨tf, tone, tnest, tbid, tnc, tproto⟩ := t
  simp only [canonNames] at hnames hcn ⊢
  have hlook : ∀ g ∈ tf,
      MType.fieldByName ⟨tf, tone, tnest, tbid, tnc, tproto⟩ g.name = some g :=
    fun g hg => fieldByName_of_nodup tf g hnames hg
  have hdisj : ∀ g ∈ tf, alookup ([] : List (String × JSValue)) g.name = none := by
    intro g _; rfl
  rcases hcn with hcn | hcn <;> subst hcn <;> cases tproto with
  | none =>
    simp only [MType.create, MType.fieldNames, protoUsed, canonProto]
    rw [buildProto_run ⟨tf, tone, tnest, tbid, some (List.map Field.name tf), none⟩
      tf [] (fun g hg => fieldByName_of_nodup tf g hnames hg) hdisj hnames]
    simp only [List.nil_append]
    rw [createOwn_run ⟨tf, tone, tnest, tbid, some (List.map Field.name tf),
        some (List.filterMap (fun f => if isObject f.defaultValue = true then none
          else some (f.name, f.defaultValue)) tf)⟩ props tf []
      (fun g hg => fieldByName_of_nodup tf g hnames hg) hdisj hnames]
    simp
  | some p =>
    simp only [MType.create, MType.fieldNames, protoUsed]
    rw [createOwn_run ⟨tf, tone, tnest, tbid, some (List.map Field.name tf), some p⟩
      props tf [] (fun g hg => fieldByName_of_nodup tf g hnames hg) hdisj hnames]
    simp

theorem created_get (t : MType) (props : List (String × JSValue)) (f : Field)
    (hf : f ∈ t.fields) (hnames : (canonNames t).Nodup)
    (hproto : t.protoCache = none ∨ t.protoCache = some (canonProto t)) :
    Msg.get { own := canonOwn props t.fields, proto := protoUsed t } f.name =
      effVal props f := by
  have hown := alookup_filterMap_field t.fields (materializeCond props)
    (effVal props) f hnames hf
  have hpu : protoUsed t = canonProto t := by
    rcases hproto with h | h <;> simp [protoUsed, h]
  cases hm : materializeCond props f
  · rw [hm, if_neg (by simp)] at hown
    simp only [Msg.get, canonOwn, hown, hpu]
    have hmc := hm
    simp only [materializeCond, Bool.or_eq_false_iff, Bool.not_eq_true'] at hmc
    have heq : effVal props f = f.defaultValue :=
      jsStrictEq_eq_of_not_obj _ _ (by simpa using hmc.1.2) hmc.2
    have hobj : isObject f.defaultValue = false := heq ▸ hmc.2
    have hcp : canonProto t = t.fields.filterMap
        (fun g => if !isObject g.defaultValue then
          some (g.name, g.defaultValue) else none) := by
      simp only [canonProto]
      congr 1
      funext g
      cases hgo : isObject g.defaultValue <;> simp [hgo]
    rw [hcp]
    have hpl := alookup_filterMap_field t.fields
      (fun g => !isObject g.defaultValue) (fun g => g.defaultValue) f hnames hf
    simp only [hobj, Bool.not_false, if_true] at hpl
    rw [hpl]
    simp [heq]
  · rw [hm, if_pos rfl] at hown
    simp only [Msg.get, canonOwn, hown]

/-! ## C6: the materialization condition of `create` -/

/-- C6 (counterexample): for the field `x` with default `5` and the call
`create({x: 0})`, the caller supplied `0`, strictly unequal to the
default, the field is not required/repeated/map and the default is not an
object — yet the created instance has no own property `x` (the falsy
supplied value was replaced by the default before the test), so the
claimed if-and-only-if is false. -/
theorem create_materialize_claim_false :
    (MType.create exTypeX [("x", JSValue.num 0)]).isOk = true ∧
    ¬ ((((MType.create exTypeX [("x", JSValue.num 0)]).toOption.map
          (fun p => (alookup p.2.own "x").isSome)).getD false = true) ↔
        ((exFieldX.required || exFieldX.repeated || exFieldX.map ||
          suppliedUneq [("x", JSValue.num 0)] exFieldX ||
          isObject exFieldX.defaultValue) = true)) := by
  decide

/-- C6 (amended): a value is materialized as an own property of the
created instance iff the field is required, or repeated or map-typed, or
the caller supplied a *truthy* value strictly unequal to the default
(a falsy supplied value is first replaced by the default), or the
effective value is an object (equivalently for the remaining case: the
default itself is an object). -/
theorem create_materializes_iff (t : MType) (props : List (String × JSValue))
    (f : Field) (hf : f ∈ t.fields) (hnames : (canonNames t).Nodup)
    (hcn : t.fieldNamesCache = none ∨ t.fieldNamesCache = some (canonNames t)) :
    ∃ t' msg, t.create props = .ok (t', msg) ∧
      ((alookup msg.own f.name).isSome = materializeCond props f) := by
  refine ⟨_, _, create_spec t props hnames hcn, ?_⟩
  have hown := alookup_filterMap_field t.fields (materializeCond props)
    (effVal props) f hnames hf
  simp only [canonOwn]
  rw [hown]
  cases materializeCond props f <;> simp

/-- C6 (witness): the amended equivalence at the concrete schema
`{x: optional uint32, default 5}` and `create({x: 0})`. -/
theorem create_materializes_iff_witness :
    ∃ t' msg, MType.create exTypeX [("x", JSValue.num 0)] = .ok (t', msg) ∧
      ((alookup msg.own "x").isSome =
        materializeCond [("x", JSValue.num 0)] exFieldX) := by
  have h := create_materializes_iff exTypeX [("x", JSValue.num 0)] exFieldX
    (by decide) (by decide) (Or.inl (by decide))
  simpa using h

/-! ## C9: falsy supplied values are replaced by the default -/

/-- C9: when the caller supplies a falsy value (`0`, `""`, `false`,
`null`, …) for a declared field, `create` substitutes the field's
default for it (the `properties[name] || field.defaultValue`
combination), so the created instance reads that field as the default,
not as the supplied falsy value. -/
theorem create_falsy_supplied_defaults (t : MType)
    (props : List (String × JSValue)) (f : Field) (sv : JSValue)
    (hf : f ∈ t.fields) (hnames : (canonNames t).Nodup)
    (hcn : t.fieldNamesCache = none ∨ t.fieldNamesCache = some (canonNames t))
    (hproto : t.protoCache = none ∨ t.protoCache = some (canonProto t))
    (hsup : alookup props f.name = some sv)
    (hfalsy : truthy sv = false) :
    ∃ t' msg, t.create props = .ok (t', msg) ∧ msg.get f.name = f.defaultValue := by
  refine ⟨_, _, create_spec t props hnames hcn, ?_⟩
  rw [created_get t props f hf hnames hproto]
  simp [effVal, hsup, hfalsy]

/-- C9 (witness): `create({x: 0})` on the field `x` with default `5`
yields an instance whose `x` reads as `5`, not `0`. -/
theorem create_falsy_supplied_defaults_witness :
    ∃ t' msg, MType.create exTypeX [("x", JSValue.num 0)] = .ok (t', msg) ∧
      msg.get "x" = JSValue.num 5 := by
  have h := create_falsy_supplied_defaults exTypeX [("x", JSValue.num 0)]
    exFieldX (JSValue.num 0) (by decide) (by decide) (Or.inl (by decide))
    (Or.inl (by decide)) (by decide) (by decide)
  simpa using h

/-! ## C5: duplicate ids pass `add` and fail at the `fieldsById` rebuild -/

theorem fieldByName_isSome_of_mem_names (t : MType) (n : String)
    (h : n ∈ t.fields.map Field.name) : (t.fieldByName n).isSome = true := by
  obtain ⟨g, hg, hgn⟩ := List.mem_map.mp h
  show (t.fields.find? (fun f => f.name == n)).isSome = true
  rw [List.find?_isSome]
  exact ⟨g, hg, by simp [hgn]⟩

theorem buildFieldsById_err_pending (t : MType) :
    ∀ (names : List String) (acc : List (Nat × Field)),
    (∀ n ∈ names, (t.fieldByName n).isSome = true) →
    (∃ n ∈ names, ∃ f, t.fieldByName n = some f ∧ f.id ∈ acc.map Prod.fst) →
    ∃ i, (buildFieldsById t names acc).2 = .error (.duplicateId i) := by
  intro names
  induction names with
  | nil =>
    intro acc _ hpend
    obtain ⟨n, hn, _⟩ := hpend
    cases hn
  | cons n rest ih =>
    intro acc hsome hpend
    obtain ⟨g, hg⟩ := Option.isSome_iff_exists.mp (hsome n (List.mem_cons_self _ _))
    cases hfind : (acc.find? (fun p => p.1 == g.id)).isSome
    · have hfind' : acc.find? (fun p => p.1 == g.id) = none :=
        Option.not_isSome_iff_eq_none.mp (by simp [hfind])
      have hnotin : g.id ∉ acc.map Prod.fst := by
        intro hmem
        obtain ⟨q, hq, hqid⟩ := List.mem_map.mp hmem
        rw [List.find?_eq_none] at hfind'
        exact hfind' q hq (by simp [hqid])
      simp only [buildFieldsById, hg, hfind, Bool.false_eq_true, if_false]
      apply ih (acc ++ [(g.id, g)])
        (fun n' hn' => hsome n' (List.mem_cons_of_mem _ hn'))
      obtain ⟨n₀, hn₀, f₀, hf₀, hid₀⟩ := hpend
      rcases List.mem_cons.mp hn₀ with he | he
      · subst he
        rw [hg] at hf₀
        cases hf₀
        exact absurd hid₀ hnotin
      · exact ⟨n₀, he, f₀, hf₀, by simp [hid₀]⟩
    · refine ⟨g.id, ?_⟩
      simp [buildFieldsById, hg, hfind]

theorem buildFieldsById_err_two (t : MType) :
    ∀ (names : List String) (acc : List (Nat × Field)),
    (∀ n ∈ names, (t.fieldByName n).isSome = true) →
    (∃ n₁ ∈ names, ∃ n₂ ∈ names, n₁ ≠ n₂ ∧ ∃ g₁ g₂,
      t.fieldByName n₁ = some g₁ ∧ t.fieldByName n₂ = some g₂ ∧ g₁.id = g₂.id) →
    ∃ i, (buildFieldsById t names acc).2 = .error (.duplicateId i) := by
  intro names
  induction names with
  | nil =>
    intro acc _ hpair
    obtain ⟨n, hn, _⟩ := hpair
    cases hn
  | cons n rest ih =>
    intro acc hsome hpair
    obtain ⟨g, hg⟩ := Option.isSome_iff_exists.mp (hsome n (List.mem_cons_self _ _))
    cases hfind : (acc.find? (fun p => p.1 == g.id)).isSome
    · simp only [buildFieldsById, hg, hfind, Bool.false_eq_true, if_false]
      obtain ⟨n₁, hn₁, n₂, hn₂, hne, g₁, g₂, hg₁, hg₂, hid⟩ := hpair
      have hsome' : ∀ n' ∈ rest, (t.fieldByName n').isSome = true :=
        fun n' hn' => hsome n' (List.mem_cons_of_mem _ hn')
      rcases List.mem_cons.mp hn₁ with he₁ | he₁
      · subst he₁
        rw [hg] at hg₁
        cases hg₁
        have hn₂' : n₂ ∈ rest := by
          rcases List.mem_cons.mp hn₂ with he | he
          · exact absurd he.symm hne
          · exact he
        exact buildFieldsById_err_pending t rest (acc ++ [(g.id, g)]) hsome'
          ⟨n₂, hn₂', g₂, hg₂, by simp [← hid]⟩
      · rcases List.mem_cons.mp hn₂ with he₂ | he₂
        · subst he₂
          rw [hg] at hg₂
          cases hg₂
          exact buildFieldsById_err_pending t rest (acc ++ [(g.id, g)]) hsome'
            ⟨n₁, he₁, g₁, hg₁, by simp [hid]⟩
        · exact ih (acc ++ [(g.id, g)]) hsome'
            ⟨n₁, he₁, n₂, he₂, hne, g₁, g₂, hg₁, hg₂, hid⟩
    · refine ⟨g.id, ?_⟩
      simp [buildFieldsById, hg, hfind]

theorem buildProto_isOk (t : MType) :
    ∀ (names : List String) (acc : List (String × JSValue)),
    (∀ n ∈ names, (t.fieldByName n).isSome = true) →
    ∃ res, buildProto t names acc = .ok res := by
  intro names
  induction names with
  | nil => intro acc _; exact ⟨acc, rfl⟩
  | cons n rest ih =>
    intro acc hsome
    obtain ⟨g, hg⟩ := Option.isSome_iff_exists.mp (hsome n (List.mem_cons_self _ _))
    have hrest := fun n' hn' => hsome n' (List.mem_cons_of_mem _ hn')
    simp only [buildProto, hg]
    cases ho : isObject g.defaultValue
    · simp only [Bool.false_eq_true, if_false]
      exact ih (aset acc n g.defaultValue) hrest
    · simp only [if_true]
      exact ih acc hrest

theorem createOwn_isOk (t : MType) (props : List (String × JSValue)) :
    ∀ (names : List String) (acc : List (String × JSValue)),
    (∀ n ∈ names, (t.fieldByName n).isSome = true) →
    ∃ res, createOwn t props names acc = .ok res := by
  intro names
  induction names with
  | nil => intro acc _; exact ⟨acc, rfl⟩
  | cons n rest ih =>
    intro acc hsome
    obtain ⟨g, hg⟩ := Option.isSome_iff_exists.mp (hsome n (List.mem_cons_self _ _))
    have hrest := fun n' hn' => hsome n' (List.mem_cons_of_mem _ hn')
    simp only [createOwn, hg]
    cases hc : (g.required || g.repeated || g.map ||
        !jsStrictEq (if truthy ((alookup props n).getD .undefined)
            then (alookup props n).getD .undefined else g.defaultValue) g.defaultValue ||
        isObject (if truthy ((alookup props n).getD .undefined)
            then (alookup props n).getD .undefined else g.defaultValue))
    · simp only [hc, Bool.false_eq_true, if_false]
      exact ih acc hrest
    · simp only [hc, if_true]
      exact ih (aset acc n (if truthy ((alookup props n).getD .undefined)
          then (alookup props n).getD .undefined else g.defaultValue)) hrest

theorem fieldByName_congr (t t' : MType) (h : t'.fields = t.fields) (n : String) :
    t'.fieldByName n = t.fieldByName n := by
  simp [MType.fieldByName, h]

theorem create_isOk (t : MType) (props : List (String × JSValue))
    (hcn : t.fieldNamesCache = none ∨
      t.fieldNamesCache = some (t.fields.map Field.name))
    (hsome : ∀ n ∈ t.fields.map Field.name, (t.fieldByName n).isSome = true) :
    ∃ t' m, t.create props = .ok (t', m) ∧ t'.fields = t.fields ∧
      t'.fieldsByIdCache = t.fieldsByIdCache ∧
      t'.fieldNamesCache = some (t.fields.map Field.name) := by
  obtain ⟨tf, tone, tnest, tbid, tnc, tproto⟩ := t
  simp only at hcn hsome ⊢
  rcases hcn with hcn | hcn <;> subst hcn <;> cases tproto with
  | none =>
    obtain ⟨p, hp⟩ := buildProto_isOk
      ⟨tf, tone, tnest, tbid, some (tf.map Field.name), none⟩
      (tf.map Field.name) [] hsome
    obtain ⟨own, hown⟩ := createOwn_isOk
      ⟨tf, tone, tnest, tbid, some (tf.map Field.name), some p⟩ props
      (tf.map Field.name) [] hsome
    refine ⟨⟨tf, tone, tnest, tbid, some (tf.map Field.name), some p⟩,
      { own := own, proto := p }, ?_, rfl, rfl, rfl⟩
    simp only [MType.create, MType.fieldNames]
    rw [hp]
    dsimp only
    rw [hown]
  | some pr =>
    obtain ⟨own, hown⟩ := createOwn_isOk
      ⟨tf, tone, tnest, tbid, some (tf.map Field.name), some pr⟩ props
      (tf.map Field.name) [] hsome
    refine ⟨⟨tf, tone, tnest, tbid, some (tf.map Field.name), some pr⟩,
      { own := own, proto := pr }, ?_, rfl, rfl, rfl⟩
    simp only [MType.create, MType.fieldNames]
    rw [hown]

/-- C5 (counterexample): after adding two fields with the same id 1,
`create` on the resulting type returns normally — contrary to the
claim's assertion that `create` is among the operations triggering the
`fieldsById` construction and its DuplicateIdError; the view itself does
fail when built. -/
theorem create_triggers_claim_false :
    MType.empty.add (.field exFieldA) = .ok exTypeA ∧
    exTypeA.add (.field exFieldB) = .ok exTypeDup ∧
    (MType.create exTypeDup []).isOk = true ∧
    (exTypeDup.fieldsById).1 = .error (.duplicateId 1) := by
  decide

/-- C5 (amended): adding two fields with the same numeric id and distinct
names succeeds at add time; the first subsequent construction of the
`fieldsById` view — triggered by `decode` (while `create` and `encode`
read only `fieldNames` and complete without building the view) — raises a
DuplicateIdError. -/
theorem add_dup_id_lazy_failure (t : MType) (f1 f2 : Field)
    (hex1 : t.existsName f1.name = false)
    (hex2 : t.existsName f2.name = false)
    (hne : f1.name ≠ f2.name)
    (hid : f1.id = f2.id) :
    ∃ t₁ t₂, t.add (.field f1) = .ok t₁ ∧ t₁.add (.field f2) = .ok t₂ ∧
      (∃ i, (t₂.fieldsById).1 = .error (.duplicateId i)) ∧
      (∃ t' m, t₂.create [] = .ok (t', m)) ∧
      (∃ i, (t₂.decode ⟨[], 0⟩ none).1 = .error (.duplicateId i)) := by
  have hex1' : t.fieldByName f1.name = none ∧
      t.nested.contains f1.name = false ∧ t.oneofs.contains f1.name = false := by
    simp only [MType.existsName, Bool.or_eq_false_iff] at hex1
    exact ⟨Option.not_isSome_iff_eq_none.mp (by simp [hex1.1.1]),
      hex1.1.2, hex1.2⟩
  have hex2' : t.fieldByName f2.name = none ∧
      t.nested.contains f2.name = false ∧ t.oneofs.contains f2.name = false := by
    simp only [MType.existsName, Bool.or_eq_false_iff] at hex2
    exact ⟨Option.not_isSome_iff_eq_none.mp (by simp [hex2.1.1]),
      hex2.1.2, hex2.2⟩
  refine ⟨{ t with fields := t.fields ++ [f1], fieldsByIdCache := none, fieldNamesCache := none }, { t with fields := (t.fields ++ [f1]) ++ [f2], fieldsByIdCache := none, fieldNamesCache := none }, ?_, ?_, ?_, ?_, ?_⟩
  · simp [MType.add, AddObj.name, hex1]
  · have hT1ex : MType.existsName { t with fields := t.fields ++ [f1], fieldsByIdCache := none, fieldNamesCache := none } f2.name = false := by
      simp only [MType.existsName, MType.fieldByName]
      rw [List.find?_append]
      have h2n : t.fields.find? (fun g => g.name == f2.name) = none := hex2'.1
      rw [h2n, Option.none_or]
      have hf1n : [f1].find? (fun g => g.name == f2.name) = none := by
        rw [List.find?_eq_none]
        intro x hx
        simp only [List.mem_singleton] at hx
        subst hx
        simp only [beq_iff_eq]
        exact hne
      rw [hf1n]
      simp only [Option.isSome_none, Bool.false_or]
      have hn1 : t.nested.contains f2.name = false := hex2'.2.1
      have hn2 : t.oneofs.contains f2.name = false := hex2'.2.2
      rw [hn1, hn2]
      rfl
    simp [MType.add, AddObj.name, hT1ex]
  · -- the fieldsById view fails with a duplicate-id error
    have h1look : List.find? (fun g => g.name == f1.name)
        ((t.fields ++ [f1]) ++ [f2]) = some f1 := by
      rw [List.find?_append, List.find?_append]
      have e1 : List.find? (fun g => g.name == f1.name) t.fields = none := hex1'.1
      rw [e1, Option.none_or]
      rw [show List.find? (fun g => g.name == f1.name) [f1] = some f1 from by
        simp [List.find?]]
      rfl
    have h2look : List.find? (fun g => g.name == f2.name)
        ((t.fields ++ [f1]) ++ [f2]) = some f2 := by
      rw [List.find?_append, List.find?_append]
      have e2 : List.find? (fun g => g.name == f2.name) t.fields = none := hex2'.1
      rw [e2, Option.none_or]
      rw [show List.find? (fun g => g.name == f2.name) [f1] = none from by
        rw [List.find?_eq_none]
        intro x hx
        simp only [List.mem_singleton] at hx
        subst hx
        simpa using hne]
      rw [Option.none_or]
      simp [List.find?]
    have hm1 : f1.name ∈ ((t.fields ++ [f1]) ++ [f2]).map Field.name :=
      List.mem_map_of_mem Field.name (by simp)
    have hm2 : f2.name ∈ ((t.fields ++ [f1]) ++ [f2]).map Field.name :=
      List.mem_map_of_mem Field.name (by simp)
    simp only [MType.fieldsById, MType.fieldNames]
    have herr := buildFieldsById_err_two
      { t with fields := (t.fields ++ [f1]) ++ [f2], fieldsByIdCache := none, fieldNamesCache := some (((t.fields ++ [f1]) ++ [f2]).map Field.name) }
      (((t.fields ++ [f1]) ++ [f2]).map Field.name) []
      (fun n hn => fieldByName_isSome_of_mem_names _ n hn)
      ⟨f1.name, hm1, f2.name, hm2, hne, f1, f2, h1look, h2look, hid⟩
    obtain ⟨i, hi⟩ := herr
    rcases hb : buildFieldsById
      { t with fields := (t.fields ++ [f1]) ++ [f2], fieldsByIdCache := none, fieldNamesCache := some (((t.fields ++ [f1]) ++ [f2]).map Field.name) }
      (((t.fields ++ [f1]) ++ [f2]).map Field.name) [] with ⟨acc₀, res₀⟩
    rw [hb] at hi
    simp only at hi
    subst hi
    exact ⟨i, rfl⟩
  · -- create completes without error
    obtain ⟨t', m, hcm, _, _, _⟩ := create_isOk
      { t with fields := (t.fields ++ [f1]) ++ [f2], fieldsByIdCache := none, fieldNamesCache := none }
      [] (Or.inl rfl) (fun n hn => fieldByName_isSome_of_mem_names _ n hn)
    exact ⟨t', m, hcm⟩
  · -- decode triggers the view construction and fails with the same error
    obtain ⟨t', m, hcm, htf, htb, htn⟩ := create_isOk
      { t with fields := (t.fields ++ [f1]) ++ [f2], fieldsByIdCache := none, fieldNamesCache := none }
      [] (Or.inl rfl) (fun n hn => fieldByName_isSome_of_mem_names _ n hn)
    simp only [MType.decode]
    rw [hcm]
    dsimp only
    have h1look : List.find? (fun g => g.name == f1.name)
        ((t.fields ++ [f1]) ++ [f2]) = some f1 := by
      rw [List.find?_append, List.find?_append]
      have e1 : List.find? (fun g => g.name == f1.name) t.fields = none := hex1'.1
      rw [e1, Option.none_or]
      rw [show List.find? (fun g => g.name == f1.name) [f1] = some f1 from by
        simp [List.find?]]
      rfl
    have h2look : List.find? (fun g => g.name == f2.name)
        ((t.fields ++ [f1]) ++ [f2]) = some f2 := by
      rw [List.find?_append, List.find?_append]
      have e2 : List.find? (fun g => g.name == f2.name) t.fields = none := hex2'.1
      rw [e2, Option.none_or]
      rw [show List.find? (fun g => g.name == f2.name) [f1] = none from by
        rw [List.find?_eq_none]
        intro x hx
        simp only [List.mem_singleton] at hx
        subst hx
        simpa using hne]
      rw [Option.none_or]
      simp [List.find?]
    have hm1 : f1.name ∈ ((t.fields ++ [f1]) ++ [f2]).map Field.name :=
      List.mem_map_of_mem Field.name (by simp)
    have hm2 : f2.name ∈ ((t.fields ++ [f1]) ++ [f2]).map Field.name :=
      List.mem_map_of_mem Field.name (by simp)
    have hsome' : ∀ n ∈ ((t.fields ++ [f1]) ++ [f2]).map Field.name,
        (t'.fieldByName n).isSome = true := by
      intro n hn
      rw [fieldByName_congr
        { t with fields := (t.fields ++ [f1]) ++ [f2], fieldsByIdCache := none, fieldNamesCache := none } t' htf]
      exact fieldByName_isSome_of_mem_names _ n hn
    have h1look' : t'.fieldByName f1.name = some f1 := by
      rw [fieldByName_congr
        { t with fields := (t.fields ++ [f1]) ++ [f2], fieldsByIdCache := none, fieldNamesCache := none } t' htf]
      exact h1look
    have h2look' : t'.fieldByName f2.name = some f2 := by
      rw [fieldByName_congr
        { t with fields := (t.fields ++ [f1]) ++ [f2], fieldsByIdCache := none, fieldNamesCache := none } t' htf]
      exact h2look
    have herr := buildFieldsById_err_two t'
      (((t.fields ++ [f1]) ++ [f2]).map Field.name) [] hsome'
      ⟨f1.name, hm1, f2.name, hm2, hne, f1, f2, h1look', h2look', hid⟩
    obtain ⟨i, hi⟩ := herr
    simp only [MType.fieldsById, htb, MType.fieldNames, htn]
    rcases hb : buildFieldsById t'
      (((t.fields ++ [f1]) ++ [f2]).map Field.name) [] with ⟨acc₀, res₀⟩
    rw [hb] at hi
    simp only at hi
    subst hi
    exact ⟨i, rfl⟩

/-- C5 (witness): the two same-id fields `a` and `b` on a fresh type. -/
theorem add_dup_id_lazy_failure_witness :
    ∃ t₁ t₂, MType.empty.add (.field exFieldA) = .ok t₁ ∧
      t₁.add (.field exFieldB) = .ok t₂ ∧
      (∃ i, (t₂.fieldsById).1 = .error (.duplicateId i)) ∧
      (∃ t' m, t₂.create [] = .ok (t', m)) ∧
      (∃ i, (t₂.decode ⟨[], 0⟩ none).1 = .error (.duplicateId i)) :=
  add_dup_id_lazy_failure MType.empty exFieldA exFieldB
    (by decide) (by decide) (by decide) (by decide)

/-! ## C2: the encode emission condition -/

theorem encodeLoop_spec (t : MType) (m : Msg) (gs : List Field) :
    ∀ w,
    (∀ g ∈ gs, t.fieldByName g.name = some g) →
    (∀ g ∈ gs, writeCond m g = true →
      ∃ bts, fieldEncode g (m.get g.name) = .ok bts) →
    ∃ l : List (Field × JSValue × List Nat),
      encodeLoop t m (gs.map Field.name) w =
        .ok (w ++ concatAll (l.map (fun p => p.2.2))) ∧
      l.map Prod.fst = gs.filter (fun g => writeCond m g) ∧
      (∀ p ∈ l, p.2.1 = m.get p.1.name ∧ fieldEncode p.1 p.2.1 = .ok p.2.2) := by
  induction gs with
  | nil =>
    intro w _ _
    exact ⟨[], by simp [encodeLoop, concatAll], by simp, by simp⟩
  | cons g rest ih =>
    intro w hlook henc
    have hg := hlook g (List.mem_cons_self _ _)
    have hlook' := fun g' h => hlook g' (List.mem_cons_of_mem _ h)
    have henc' := fun g' h hw => henc g' (List.mem_cons_of_mem _ h) hw
    simp only [List.map_cons, encodeLoop, hg]
    cases hw : writeCond m g
    · rw [show (g.required || !jsEq (m.get g.name) g.defaultValue) = false from hw]
      simp only [Bool.false_eq_true, if_false]
      obtain ⟨l, heq, hmap, hprops⟩ := ih w hlook' henc'
      refine ⟨l, heq, ?_, hprops⟩
      rw [hmap, List.filter_cons_of_neg (by simp [hw])]
    · rw [show (g.required || !jsEq (m.get g.name) g.defaultValue) = true from hw]
      simp only [if_true]
      obtain ⟨bts, hbts⟩ := henc g (List.mem_cons_self _ _) hw
      rw [hbts]
      dsimp only
      obtain ⟨l, heq, hmap, hprops⟩ := ih (w ++ bts) hlook' henc'
      refine ⟨(g, m.get g.name, bts) :: l, ?_, ?_, ?_⟩
      · rw [heq]
        simp [concatAll, List.append_assoc]
      · rw [List.map_cons, hmap, List.filter_cons_of_pos (by simp [hw])]
      · intro p hp
        rcases List.mem_cons.mp hp with he | he
        · subst he
          exact ⟨rfl, hbts⟩
        · exact hprops p he

/-- C2: `encode` writes a declared field iff it is required or its
current value is loosely (`!=`, coercive) unequal to the field's
default: the writer's output is exactly the concatenation of the encoded
blocks of the fields passing that test, in declaration order. -/
theorem encode_writes_iff (t : MType) (m : Msg) (B : Field → List Nat)
    (hnames : (canonNames t).Nodup)
    (hcn : t.fieldNamesCache = none ∨ t.fieldNamesCache = some (canonNames t))
    (henc : ∀ f ∈ t.fields, writeCond m f = true →
      fieldEncode f (m.get f.name) = .ok (B f)) :
    (t.encode m).1 =
      .ok (concatAll ((t.fields.filter (fun f => writeCond m f)).map B)) := by
  obtain ⟨tf, tone, tnest, tbid, tnc, tproto⟩ := t
  simp only [canonNames] at hnames hcn henc ⊢
  have hlook : ∀ g ∈ tf,
      MType.fieldByName ⟨tf, tone, tnest, tbid, tnc, tproto⟩ g.name = some g :=
    fun g hg => fieldByName_of_nodup tf g hnames hg
  have main : ∀ (R : MType), R.fields = tf →
      (encodeLoop R m (tf.map Field.name) []) =
        .ok (concatAll ((tf.filter (fun f => writeCond m f)).map B)) := by
    intro R hR
    have hlookR : ∀ g ∈ tf, R.fieldByName g.name = some g := by
      intro g hg
      rw [fieldByName_congr ⟨tf, tone, tnest, tbid, tnc, tproto⟩ R hR]
      exact hlook g hg
    obtain ⟨l, heq, hmap, hprops⟩ := encodeLoop_spec R m tf []
      hlookR
      (fun g hg hw => ⟨B g, henc g hg hw⟩)
    rw [heq]
    have hblocks : l.map (fun p => p.2.2) = (l.map Prod.fst).map B := by
      rw [List.map_map]
      apply List.map_congr_left
      intro p hp
      have hmem : p.1 ∈ tf.filter (fun f => writeCond m f) := by
        rw [← hmap]
        exact List.mem_map_of_mem Prod.fst hp
      rw [List.mem_filter] at hmem
      have h1 := henc p.1 hmem.1 hmem.2
      have h2 := (hprops p hp).2
      rw [(hprops p hp).1] at h2
      rw [h1] at h2
      exact (Except.ok.inj h2).symm
    rw [hblocks, hmap]
    simp
  rcases hcn with hcn | hcn <;> subst hcn
  · simp only [MType.encode, MType.fieldNames]
    exact main _ rfl
  · simp only [MType.encode, MType.fieldNames]
    exact main _ rfl

/-- C2 (witness): on the example type with `{id: 7, name: ""}`, only the
required `id` field passes the emission test and the output is its block
`[8, 7]`. -/
theorem encode_writes_iff_witness :
    (exType.encode exMsg).1 =
      .ok (concatAll ((exType.fields.filter (fun f => writeCond exMsg f)).map
        (fun f => if f.name = "id" then [8, 7] else []))) :=
  encode_writes_iff exType exMsg
    (fun f => if f.name = "id" then [8, 7] else [])
    (by decide) (Or.inl (by decide)) (by decide)

/-! ## C4: the cursor must land exactly on the limit -/

/-- C4: whenever `decode` returns an instance, the final cursor position
equals the established limit exactly; and whenever the read loop stops at
a position different from the limit, `decode` raises a
MalformedWireFormatError instead of returning the partially populated
instance. -/
theorem decode_cursor_exact (t : MType) (r : Reader) (len? : Option Nat) :
    (∀ m r', (t.decode r len?).1 = .ok (m, r') → r'.pos = decodeLimit r len?) ∧
    (∀ t₁ msg byId t₂ m r',
      t.create [] = .ok (t₁, msg) →
      t₁.fieldsById = (.ok byId, t₂) →
      decodeLoop byId (decodeLimit r len?) (decodeLimit r len? - r.pos + 1)
        msg r = .ok (m, r') →
      r'.pos ≠ decodeLimit r len? →
      (t.decode r len?).1 =
        .error (.malformedWireFormat r'.pos (decodeLimit r len?))) := by
  constructor
  · intro m r' h
    cases hc : t.create [] with
    | error e => simp [MType.decode, hc] at h
    | ok p =>
      obtain ⟨t₁, msg⟩ := p
      rcases hb : t₁.fieldsById with ⟨res, t₂⟩
      cases res with
      | error e => simp [MType.decode, hc, hb] at h
      | ok byId =>
        cases hl : decodeLoop byId (decodeLimit r len?)
            (decodeLimit r len? - r.pos + 1) msg r with
        | error e => simp [MType.decode, hc, hb, hl] at h
        | ok q =>
          obtain ⟨m₀, r₀⟩ := q
          by_cases hpos : r₀.pos = decodeLimit r len?
          · simp only [MType.decode, hc, hb, hl, hpos, if_true] at h
            obtain ⟨hm, hr⟩ := Prod.mk.injEq .. ▸ Except.ok.inj h
            rw [← hr]
            exact hpos
          · simp [MType.decode, hc, hb, hl, hpos] at h
  · intro t₁ msg byId t₂ m r' h1 h2 h3 hne
    simp only [MType.decode, h1, h2, h3]
    rw [if_neg hne]

/-- C4 (witness): an empty buffer decodes with the cursor at limit 0; a
buffer whose unknown-field skip overshoots an explicit length limit
(declared length 2 at limit 3) is rejected as malformed, not returned. -/
theorem decode_cursor_exact_witness :
    (Reader.mk [] 0).pos = decodeLimit ⟨[], 0⟩ none ∧
    (MType.empty.decode ⟨[26, 2, 9, 9, 9], 0⟩ (some 3)).1 =
      .error (.malformedWireFormat 4 3) := by
  constructor
  · exact (decode_cursor_exact MType.empty ⟨[], 0⟩ none).1
      ⟨[], []⟩ ⟨[], 0⟩ (by decide)
  · exact (decode_cursor_exact MType.empty ⟨[26, 2, 9, 9, 9], 0⟩ (some 3)).2
      ⟨[], [], [], none, some [], some []⟩ ⟨[], []⟩ []
      ⟨[], [], [], some [], some [], some []⟩ ⟨[], []⟩
      ⟨[26, 2, 9, 9, 9], 4⟩
      (by decide) (by decide) (by decide) (by decide)

/-! ## C3: unknown fields are skipped by wire type -/

theorem skipBytes_pos (r r' : Reader) (n : Nat)
    (h : r.skipBytes n = .ok r') : r'.pos = r.pos + n := by
  unfold Reader.skipBytes at h
  split at h
  · cases h
  · cases h; rfl

/-- C3: at a tag whose field id is absent from `fieldsById`, the decoder
skips exactly the bytes implied by the wire-type code — one varint for
wire type 0, eight bytes for 1, a varint-read length `L` (advancing
exactly `L` bytes past the length) for 2, four bytes for 5 — and
continues the loop without error; any other wire-type code fails with an
UnsupportedWireTypeError naming the field and code. -/
theorem decode_unknown_field_skip (byId : List (Nat × Field)) (limit fu : Nat)
    (m : Msg) (r r₁ : Reader) (id wt : Nat)
    (hlt : r.pos < limit)
    (htag : r.varint = .ok (id * 8 + wt, r₁))
    (hwt : wt < 8)
    (hunknown : byId.find? (fun q => q.1 == id) = none) :
    (wt = 0 → ∀ r₂, r₁.skipVarint = .ok r₂ →
      decodeLoop byId limit (fu + 1) m r = decodeLoop byId limit fu m r₂) ∧
    (wt = 1 → ∀ r₂, r₁.skipBytes 8 = .ok r₂ →
      r₂.pos = r₁.pos + 8 ∧
      decodeLoop byId limit (fu + 1) m r = decodeLoop byId limit fu m r₂) ∧
    (wt = 2 → ∀ len r₂ r₃, r₁.varint = .ok (len, r₂) →
      r₂.skipBytes len = .ok r₃ →
      r₃.pos = r₂.pos + len ∧
      decodeLoop byId limit (fu + 1) m r = decodeLoop byId limit fu m r₃) ∧
    (wt = 5 → ∀ r₂, r₁.skipBytes 4 = .ok r₂ →
      r₂.pos = r₁.pos + 4 ∧
      decodeLoop byId limit (fu + 1) m r = decodeLoop byId limit fu m r₂) ∧
    (wt = 3 ∨ wt = 4 ∨ wt = 6 ∨ wt = 7 →
      decodeLoop byId limit (fu + 1) m r =
        .error (.unsupportedWireType id wt)) := by
  have hdiv : (id * 8 + wt) / 8 = id := by omega
  have hmod : (id * 8 + wt) % 8 = wt := by omega
  have hstep : decodeLoop byId limit (fu + 1) m r =
      (match (match wt with
        | 0 => r₁.skipVarint
        | 1 => r₁.skipBytes 8
        | 2 =>
          match r₁.varint with
          | .ok (len, r₂) => r₂.skipBytes len
          | .error e => .error e
        | 5 => r₁.skipBytes 4
        | _ => .error (.unsupportedWireType id wt)) with
      | .ok r₂ => decodeLoop byId limit fu m r₂
      | .error e => .error e) := by
    simp only [decodeLoop, hlt, if_true, htag]
    try dsimp only
    rw [hdiv, hmod, hunknown]
  refine ⟨?_, ?_, ?_, ?_, ?_⟩
  · intro hw r₂ hskip
    subst hw
    rw [hstep, hskip]
  · intro hw r₂ hskip
    subst hw
    exact ⟨skipBytes_pos r₁ r₂ 8 hskip, by rw [hstep, hskip]⟩
  · intro hw len r₂ r₃ hlen hskip
    subst hw
    refine ⟨skipBytes_pos r₂ r₃ len hskip, ?_⟩
    rw [hstep, hlen]
    dsimp only
    rw [hskip]
  · intro hw r₂ hskip
    subst hw
    exact ⟨skipBytes_pos r₁ r₂ 4 hskip, by rw [hstep, hskip]⟩
  · intro hw
    rcases hw with hw | hw | hw | hw <;> subst hw <;> rw [hstep]

/-- C3 (witness): buffer `[26, 2, 9, 9]` holds the tag `26 = (3 << 3) | 2`
for the unknown field 3 with declared length 2 on an empty schema: the
loop advances exactly 2 bytes past the length varint to position 4 and
continues; the same tag recast to wire type 7 (`31 = (3 << 3) | 7`) is
rejected. -/
theorem decode_unknown_field_skip_witness :
    (decodeLoop [] 4 2 ⟨[], []⟩ ⟨[26, 2, 9, 9], 0⟩ =
      decodeLoop [] 4 1 ⟨[], []⟩ ⟨[26, 2, 9, 9], 4⟩) ∧
    ((⟨[26, 2, 9, 9], 4⟩ : Reader).pos = (⟨[26, 2, 9, 9], 2⟩ : Reader).pos + 2) ∧
    (decodeLoop [] 4 2 ⟨[], []⟩ ⟨[31, 2, 9, 9], 0⟩ =
      .error (.unsupportedWireType 3 7)) := by
  have h2 := (decode_unknown_field_skip [] 4 1 ⟨[], []⟩ ⟨[26, 2, 9, 9], 0⟩
    ⟨[26, 2, 9, 9], 1⟩ 3 2 (by decide) (by decide) (by decide)
    (by decide)).2.2.1 rfl 2 ⟨[26, 2, 9, 9], 2⟩ ⟨[26, 2, 9, 9], 4⟩
    (by decide) (by decide)
  have h7 := (decode_unknown_field_skip [] 4 1 ⟨[], []⟩ ⟨[31, 2, 9, 9], 0⟩
    ⟨[31, 2, 9, 9], 1⟩ 3 7 (by decide) (by decide) (by decide)
    (by decide)).2.2.2.2 (by simp)
  exact ⟨h2.2, h2.1, h7⟩

/-! ## C10: single ownership of fields across types -/

theorem nlookup_nset_self {α : Type} (l : List (Nat × α)) (k : Nat) (v : α) :
    nlookup (nset l k v) k = some v := by
  induction l with
  | nil => simp [nset, nlookup]
  | cons h rest ih =>
    obtain ⟨k₁, v₁⟩ := h
    by_cases hk : k₁ = k
    · subst hk; simp [nset, nlookup]
    · simp [nset, nlookup, hk, ih]

theorem nlookup_nset_ne {α : Type} (l : List (Nat × α)) (k k' : Nat) (v : α)
    (h : k' ≠ k) : nlookup (nset l k v) k' = nlookup l k' := by
  induction l with
  | nil =>
    simp only [nset, nlookup]
    rw [if_neg (fun hh => h hh.symm)]
  | cons hd rest ih =>
    obtain ⟨k₁, v₁⟩ := hd
    by_cases hk : k₁ = k
    · subst hk
      simp only [nset, if_pos rfl, nlookup]
      rw [if_neg (fun hh => h hh.symm), if_neg (fun hh => h hh.symm)]
    · simp only [nset, if_neg hk, nlookup]
      by_cases hk' : k₁ = k'
      · simp [hk']
      · simp [hk', ih]

theorem nlookup_filter_self {α : Type} (l : List (Nat × α)) (k : Nat) :
    nlookup (l.filter (fun p => p.1 ≠ k)) k = none := by
  induction l with
  | nil => simp [nlookup]
  | cons hd rest ih =>
    obtain ⟨k₁, v₁⟩ := hd
    by_cases hk : k₁ = k
    · subst hk; simpa using ih
    · rw [List.filter_cons_of_pos (by simpa using hk)]
      simp only [nlookup, if_neg hk]
      exact ih

theorem nlookup_filter_ne {α : Type} (l : List (Nat × α)) (k k' : Nat)
    (h : k' ≠ k) :
    nlookup (l.filter (fun p => p.1 ≠ k)) k' = nlookup l k' := by
  induction l with
  | nil => simp [nlookup]
  | cons hd rest ih =>
    obtain ⟨k₁, v₁⟩ := hd
    by_cases hk : k₁ = k
    · subst hk
      rw [List.filter_cons_of_neg (by simp)]
      simp only [nlookup]
      rw [if_neg (fun hh => h hh.symm)]
      exact ih
    · rw [List.filter_cons_of_pos (by simpa using hk)]
      simp only [nlookup]
      by_cases hk' : k₁ = k'
      · simp [hk']
      · simp only [if_neg hk']
        exact ih

theorem nlookup_some_mem {α : Type} (l : List (Nat × α)) (k : Nat) (v : α)
    (h : nlookup l k = some v) : (k, v) ∈ l := by
  induction l with
  | nil => cases h
  | cons hd rest ih =>
    obtain ⟨k₁, v₁⟩ := hd
    by_cases hk : k₁ = k
    · subst hk
      simp only [nlookup, if_pos rfl] at h
      cases h
      exact List.mem_cons_self _ _
    · simp only [nlookup, if_neg hk] at h
      exact List.mem_cons_of_mem _ (ih h)

theorem inv_of_invB (w : World) (h : w.invB = true) : w.inv := by
  intro t g hg
  unfold World.owned at hg
  cases hl : nlookup w.towned t with
  | none => rw [hl] at hg; cases hg
  | some l =>
    rw [hl] at hg
    simp only [Option.getD_some] at hg
    have hmem := nlookup_some_mem _ _ _ hl
    unfold World.invB at h
    rw [List.all_eq_true] at h
    have hall := h (t, l) hmem
    rw [List.all_eq_true] at hall
    have hval := hall g (by unfold World.owned; rw [hl]; exact hg)
    simpa using hval

theorem removeF_spec (w : World) (p fid : Nat) (w₁ : World)
    (hinv : w.inv) (hrem : w.removeF p fid = .ok w₁) :
    w₁.inv ∧ w₁.parentOf fid = none := by
  unfold World.removeF at hrem
  cases hn : w.nameOf fid with
  | none => rw [hn] at hrem; cases hrem
  | some n =>
    rw [hn] at hrem
    dsimp only at hrem
    by_cases hfind : (w.owned p).find? (fun g => w.nameOf g == some n) = some fid
    case neg =>
      rw [if_pos hfind] at hrem
      cases hrem
    case pos =>
      rw [if_neg (not_ne_iff.mpr hfind)] at hrem
      have hfmem : fid ∈ w.owned p := List.mem_of_find?_eq_some hfind
      have hparfid : w.parentOf fid = some p := hinv p fid hfmem
      injection hrem with hw
      subst hw
      constructor
      · intro t g hg
        by_cases ht : t = p
        · subst ht
          have howned : World.owned { w with towned := nset w.towned t ((w.owned t).filter (fun g => w.nameOf g ≠ some n)), fparent := w.fparent.filter (fun q => q.1 ≠ fid) } t = (w.owned t).filter (fun g => w.nameOf g ≠ some n) := by
            unfold World.owned
            simp only
            rw [nlookup_nset_self]
            rfl
          rw [howned] at hg
          rw [List.mem_filter] at hg
          have hgname : w.nameOf g ≠ some n := by simpa using hg.2
          have hgfid : g ≠ fid := by
            intro he
            rw [he] at hgname
            exact hgname hn
          have hpg : w.parentOf g = some t := hinv t g hg.1
          show nlookup (w.fparent.filter (fun q => q.1 ≠ fid)) g = some t
          rw [nlookup_filter_ne _ _ _ hgfid]
          exact hpg
        · have howned : World.owned { w with towned := nset w.towned p ((w.owned p).filter (fun g => w.nameOf g ≠ some n)), fparent := w.fparent.filter (fun q => q.1 ≠ fid) } t = w.owned t := by
            unfold World.owned
            simp only
            rw [nlookup_nset_ne _ _ _ _ ht]
          rw [howned] at hg
          have hpg : w.parentOf g = some t := hinv t g hg
          have hgfid : g ≠ fid := by
            intro he
            rw [he] at hpg
            rw [hparfid] at hpg
            exact ht (Option.some.inj hpg).symm
          show nlookup (w.fparent.filter (fun q => q.1 ≠ fid)) g = some t
          rw [nlookup_filter_ne _ _ _ hgfid]
          exact hpg
      · show nlookup (w.fparent.filter (fun q => q.1 ≠ fid)) fid = none
        exact nlookup_filter_self _ _

theorem add_core_single_owner (w₁ : World) (tid fid : Nat)
    (hinv₁ : w₁.inv) (hpar₁ : w₁.parentOf fid = none) :
    fid ∈ World.owned { w₁ with towned := nset w₁.towned tid (w₁.owned tid ++ [fid]), fparent := nset w₁.fparent fid tid } tid ∧
    (∀ t, fid ∈ World.owned { w₁ with towned := nset w₁.towned tid (w₁.owned tid ++ [fid]), fparent := nset w₁.fparent fid tid } t → t = tid) ∧
    World.inv { w₁ with towned := nset w₁.towned tid (w₁.owned tid ++ [fid]), fparent := nset w₁.fparent fid tid } := by
  have howned_tid : World.owned { w₁ with towned := nset w₁.towned tid (w₁.owned tid ++ [fid]), fparent := nset w₁.fparent fid tid } tid = w₁.owned tid ++ [fid] := by
    unfold World.owned
    simp only
    rw [nlookup_nset_self]
    rfl
  have hinv' : World.inv { w₁ with towned := nset w₁.towned tid (w₁.owned tid ++ [fid]), fparent := nset w₁.fparent fid tid } := by
    intro t g hg
    by_cases ht : t = tid
    · subst ht
      rw [howned_tid] at hg
      rcases List.mem_append.mp hg with hg | hg
      · have hpg : w₁.parentOf g = some t := hinv₁ t g hg
        have hgfid : g ≠ fid := by
          intro he
          rw [he, hpar₁] at hpg
          cases hpg
        show nlookup (nset w₁.fparent fid t) g = some t
        rw [nlookup_nset_ne _ _ _ _ hgfid]
        exact hpg
      · simp only [List.mem_singleton] at hg
        subst hg
        show nlookup (nset w₁.fparent g t) g = some t
        rw [nlookup_nset_self]
    · have howned : World.owned { w₁ with towned := nset w₁.towned tid (w₁.owned tid ++ [fid]), fparent := nset w₁.fparent fid tid } t = w₁.owned t := by
        unfold World.owned
        simp only
        rw [nlookup_nset_ne _ _ _ _ ht]
      rw [howned] at hg
      have hpg : w₁.parentOf g = some t := hinv₁ t g hg
      have hgfid : g ≠ fid := by
        intro he
        rw [he, hpar₁] at hpg
        cases hpg
      show nlookup (nset w₁.fparent fid tid) g = some t
      rw [nlookup_nset_ne _ _ _ _ hgfid]
      exact hpg
  refine ⟨by rw [howned_tid]; simp, ?_, hinv'⟩
  intro t hmem
  have hpt := hinv' t fid hmem
  have hself : nlookup (nset w₁.fparent fid tid) fid = some tid :=
    nlookup_nset_self _ _ _
  have hpt' : nlookup (nset w₁.fparent fid tid) fid = some t := hpt
  rw [hself] at hpt'
  exact (Option.some.inj hpt').symm

/-- C10: a field is owned by at most one type: when `add` succeeds on a
field object — first detaching it from its current parent when it has
one — the field ends up in the target type's field collection and in no
other type's collection; the ownership invariant is preserved. -/
theorem add_field_single_owner (w : World) (tid fid : Nat) (w' : World)
    (hinv : w.invB = true) (hadd : w.addF tid fid = .ok w') :
    fid ∈ w'.owned tid ∧ (∀ t, fid ∈ w'.owned t → t = tid) ∧ w'.inv := by
  have hi := inv_of_invB w hinv
  unfold World.addF at hadd
  cases hn : w.nameOf fid with
  | none => rw [hn] at hadd; cases hadd
  | some n =>
    rw [hn] at hadd
    dsimp only at hadd
    by_cases hex : w.existsIn tid n = true
    · rw [if_pos hex] at hadd
      cases hadd
    · rw [if_neg hex] at hadd
      cases hp : w.parentOf fid with
      | some p =>
        rw [hp] at hadd
        dsimp only at hadd
        cases hrem : w.removeF p fid with
        | error e =>
          rw [hrem] at hadd
          cases hadd
        | ok w₁ =>
          rw [hrem] at hadd
          dsimp only at hadd
          obtain ⟨hinv₁, hpar₁⟩ := removeF_spec w p fid w₁ hi hrem
          injection hadd with hw
          subst hw
          exact add_core_single_owner w₁ tid fid hinv₁ hpar₁
      | none =>
        rw [hp] at hadd
        dsimp only at hadd
        injection hadd with hw
        subst hw
        exact add_core_single_owner w tid fid hi hp

/-! ## Wire-level round-trip lemmas (C1) -/

theorem varintEncodeAux_spec : ∀ (fuel n : Nat), n < 128 ^ (fuel + 1) →
    ∀ rest, varintDecode (varintEncodeAux fuel n ++ rest) =
      some (n, (varintEncodeAux fuel n).length) := by
  intro fuel
  induction fuel with
  | zero =>
    intro n hn rest
    have h128 : n < 128 := by simpa using hn
    simp [varintEncodeAux, varintDecode, Nat.mod_eq_of_lt h128, h128]
  | succ fu ih =>
    intro n hn rest
    by_cases h : n < 128
    · simp [varintEncodeAux, varintDecode, h]
    · have hb : ¬(n % 128 + 128 < 128) := by omega
      have hdivlt : n / 128 < 128 ^ (fu + 1) := by
        rw [Nat.div_lt_iff_lt_mul (by norm_num : (0:Nat) < 128)]
        calc n < 128 ^ (fu + 1 + 1) := hn
        _ = 128 ^ (fu + 1) * 128 := by rw [pow_succ]
      simp only [varintEncodeAux, h, if_false, List.cons_append, varintDecode, hb]
      rw [ih (n / 128) hdivlt rest]
      simp only [List.length_cons]
      have harith : (n % 128 + 128) % 128 + n / 128 * 128 = n := by omega
      rw [harith]

theorem varintEncode_spec (n : Nat) (rest : List Nat) :
    varintDecode (varintEncode n ++ rest) = some (n, (varintEncode n).length) := by
  apply varintEncodeAux_spec
  have h1 : n < 2 ^ (n + 1) :=
    lt_of_lt_of_le (Nat.lt_two_pow n)
      (Nat.pow_le_pow_right (by norm_num) (Nat.le_succ n))
  have h2 : (2:Nat) ^ (n + 1) ≤ 128 ^ (n + 1) :=
    Nat.pow_le_pow_left (by norm_num) (n + 1)
  exact lt_of_lt_of_le h1 h2

theorem varintEncode_ne_nil (n : Nat) : varintEncode n ≠ [] := by
  unfold varintEncode
  cases n with
  | zero => simp [varintEncodeAux]
  | succ m =>
    by_cases hm : m + 1 < 128 <;> simp [varintEncodeAux, hm]

theorem reader_varint_at (pre x rest : List Nat) (n : Nat)
    (hx : varintDecode (x ++ rest) = some (n, x.length)) :
    Reader.varint ⟨pre ++ (x ++ rest), pre.length⟩ =
      .ok (n, ⟨pre ++ (x ++ rest), pre.length + x.length⟩) := by
  unfold Reader.varint
  simp only [List.drop_left pre (x ++ rest)]
  rw [hx]

theorem reader_takeBytes_at (pre x rest : List Nat) :
    Reader.takeBytes ⟨pre ++ (x ++ rest), pre.length⟩ x.length =
      .ok (x, ⟨pre ++ (x ++ rest), pre.length + x.length⟩) := by
  unfold Reader.takeBytes Reader.len
  rw [if_neg (by simp only [List.length_append]; omega)]
  simp only [List.drop_left pre (x ++ rest)]
  rw [List.take_left x rest]

theorem utf8DecodeAux_char (fu c : Nat) (rest : List Nat) (hc : c < 1114112) :
    utf8DecodeAux (fu + 1) (utf8EncodeChar c ++ rest) =
      (utf8DecodeAux fu rest).map (c :: ·) := by
  by_cases h1 : c < 128
  · have he : utf8EncodeChar c = [c] := by simp [utf8EncodeChar, h1]
    rw [he]
    simp only [List.cons_append, List.nil_append, utf8DecodeAux, h1, if_true]
  · by_cases h2 : c < 2048
    · have he : utf8EncodeChar c = [192 + c / 64, 128 + c % 64] := by
        simp [utf8EncodeChar, h1, h2]
      rw [he]
      simp only [List.cons_append, List.nil_append, utf8DecodeAux]
      rw [if_neg (by omega), if_neg (by omega), if_pos (by omega)]
      rw [if_pos (by simp only [Bool.and_eq_true, decide_eq_true_eq]; omega)]
      have harith : (192 + c / 64 - 192) * 64 + (128 + c % 64 - 128) = c := by
        omega
      rw [harith]
    · by_cases h3 : c < 65536
      · have he : utf8EncodeChar c =
            [224 + c / 4096, 128 + c / 64 % 64, 128 + c % 64] := by
          simp [utf8EncodeChar, h1, h2, h3]
        rw [he]
        simp only [List.cons_append, List.nil_append, utf8DecodeAux]
        rw [if_neg (by omega), if_neg (by omega), if_neg (by omega),
          if_pos (by omega)]
        rw [if_pos (by simp only [Bool.and_eq_true, decide_eq_true_eq]; omega)]
        have harith : (224 + c / 4096 - 224) * 4096 +
            (128 + c / 64 % 64 - 128) * 64 + (128 + c % 64 - 128) = c := by
          omega
        rw [harith]
      · have he : utf8EncodeChar c =
            [240 + c / 262144, 128 + c / 4096 % 64,
             128 + c / 64 % 64, 128 + c % 64] := by
          simp [utf8EncodeChar, h1, h2, h3]
        rw [he]
        simp only [List.cons_append, List.nil_append, utf8DecodeAux]
        rw [if_neg (by omega), if_neg (by omega), if_neg (by omega),
          if_neg (by omega), if_pos (by omega)]
        rw [if_pos (by simp only [Bool.and_eq_true, decide_eq_true_eq]; omega)]
        have harith : (240 + c / 262144 - 240) * 262144 +
            (128 + c / 4096 % 64 - 128) * 4096 +
            (128 + c / 64 % 64 - 128) * 64 + (128 + c % 64 - 128) = c := by
          omega
        rw [harith]

theorem utf8EncodeChar_length_pos (c : Nat) : 0 < (utf8EncodeChar c).length := by
  unfold utf8EncodeChar
  split
  · simp
  · split
    · simp
    · split <;> simp

theorem utf8Encode_length_ge (s : List Nat) :
    s.length ≤ (utf8Encode s).length := by
  induction s with
  | nil => simp [utf8Encode]
  | cons c cs ih =>
    simp only [utf8Encode, List.length_cons, List.length_append]
    have := utf8EncodeChar_length_pos c
    omega

theorem utf8DecodeAux_encode (s : List Nat) :
    ∀ fuel, (∀ c ∈ s, c < 1114112) → s.length ≤ fuel →
    utf8DecodeAux fuel (utf8Encode s) = some s := by
  induction s with
  | nil =>
    intro fuel _ _
    cases fuel <;> simp [utf8Encode, utf8DecodeAux]
  | cons c cs ih =>
    intro fuel hval hlen
    obtain ⟨fu, rfl⟩ : ∃ fu, fuel = fu + 1 :=
      ⟨fuel - 1, by simp only [List.length_cons] at hlen; omega⟩
    have hc : c < 1114112 := hval c (List.mem_cons_self _ _)
    have hcs : ∀ c' ∈ cs, c' < 1114112 :=
      fun c' h => hval c' (List.mem_cons_of_mem _ h)
    have hfu : cs.length ≤ fu := by
      simp only [List.length_cons] at hlen
      omega
    have hstep : utf8Encode (c :: cs) = utf8EncodeChar c ++ utf8Encode cs := rfl
    rw [hstep, utf8DecodeAux_char fu c (utf8Encode cs) hc, ih fu hcs hfu]
    rfl

theorem utf8_roundtrip (s : List Nat) (hval : ∀ c ∈ s, c < 1114112) :
    utf8Decode (utf8Encode s) = some s := by
  unfold utf8Decode
  exact utf8DecodeAux_encode s (utf8Encode s).length hval (utf8Encode_length_ge s)

theorem fieldWireType_lt (ft : FieldType) : fieldWireType ft < 8 := by
  cases ft <;> simp [fieldWireType]

/-- The shape of a field's block (tag, then payload) and the exact
inverse behavior of the field's decoder positioned at the payload. -/
theorem fieldEncode_shape (f : Field) (v : JSValue)
    (hv : typedValB f.ftype v = true) :
    ∃ payload, fieldEncode f v =
      .ok (varintEncode (f.id * 8 + fieldWireType f.ftype) ++ payload) ∧
      ∀ pre rest, fieldDecode f ⟨pre ++ (payload ++ rest), pre.length⟩ =
        .ok (v, ⟨pre ++ (payload ++ rest), pre.length + payload.length⟩) := by
  cases hft : f.ftype <;> cases v <;>
    simp only [typedValB, hft, Bool.false_eq_true] at hv
  case uint32.num n =>
    simp only [Bool.and_eq_true, decide_eq_true_eq] at hv
    refine ⟨varintEncode n.toNat, ?_, ?_⟩
    · simp only [fieldEncode, hft]
      rw [if_pos ⟨hv.1, hv.2⟩]
    · intro pre rest
      simp only [fieldDecode, hft]
      rw [reader_varint_at pre (varintEncode n.toNat) rest n.toNat
        (varintEncode_spec n.toNat rest)]
      have hlt : n.toNat < 4294967296 := by omega
      have hmod : n.toNat % 4294967296 = n.toNat := Nat.mod_eq_of_lt hlt
      simp only [hmod]
      rw [Int.toNat_of_nonneg hv.1]
  case boolTy.boolean b =>
    refine ⟨varintEncode (if b then 1 else 0), ?_, ?_⟩
    · simp [fieldEncode, hft]
    · intro pre rest
      simp only [fieldDecode, hft]
      rw [reader_varint_at pre (varintEncode (if b then 1 else 0)) rest
        (if b then 1 else 0) (varintEncode_spec _ rest)]
      cases b <;> simp
  case strTy.str s =>
    rw [List.all_eq_true] at hv
    have hval : ∀ c ∈ s, c < 1114112 := by
      intro c hc
      simpa using hv c hc
    refine ⟨varintEncode (utf8Encode s).length ++ utf8Encode s, ?_, ?_⟩
    · simp only [fieldEncode, hft]
      rw [if_pos (by rw [List.all_eq_true]; exact hv)]
      simp [List.append_assoc]
    · intro pre rest
      simp only [fieldDecode, hft]
      have hasc : pre ++ ((varintEncode (utf8Encode s).length ++ utf8Encode s) ++ rest) =
          pre ++ (varintEncode (utf8Encode s).length ++ (utf8Encode s ++ rest)) := by
        simp [List.append_assoc]
      rw [hasc]
      rw [reader_varint_at pre (varintEncode (utf8Encode s).length)
        (utf8Encode s ++ rest) (utf8Encode s).length
        (varintEncode_spec _ _)]
      dsimp only
      have hasc2 : pre ++ (varintEncode (utf8Encode s).length ++ (utf8Encode s ++ rest)) =
          (pre ++ varintEncode (utf8Encode s).length) ++ (utf8Encode s ++ rest) := by
        simp [List.append_assoc]
      have hpos : pre.length + (varintEncode (utf8Encode s).length).length =
          (pre ++ varintEncode (utf8Encode s).length).length := by
        simp [List.length_append]
      rw [hasc2, hpos,
        reader_takeBytes_at (pre ++ varintEncode (utf8Encode s).length)
          (utf8Encode s) rest]
      dsimp only
      rw [utf8_roundtrip s hval]
      simp only [List.length_append, List.append_assoc]
      norm_num
      omega

theorem byId_find (gs : List Field) (f : Field)
    (hids : (gs.map Field.id).Nodup) (hf : f ∈ gs) :
    (gs.map (fun g => (g.id, g))).find? (fun q => q.1 == f.id) =
      some (f.id, f) := by
  induction gs with
  | nil => cases hf
  | cons g rest ih =>
    simp only [List.map_cons, List.nodup_cons] at hids
    rcases List.mem_cons.mp hf with h | h
    · subst h
      simp [List.find?]
    · have hne : g.id ≠ f.id := by
        intro he
        exact hids.1 (he ▸ List.mem_map_of_mem Field.id h)
      simp only [List.map_cons, List.find?]
      rw [show ((g.id, g).1 == f.id) = false from beq_eq_false_iff_ne.mpr hne]
      exact ih hids.2 h

theorem concatAll_length_ge (bls : List (List Nat))
    (h : ∀ b ∈ bls, b ≠ []) : bls.length ≤ (concatAll bls).length := by
  induction bls with
  | nil => simp [concatAll]
  | cons b rest ih =>
    simp only [concatAll, List.length_cons, List.length_append]
    have hb : b ≠ [] := h b (List.mem_cons_self _ _)
    have hlen : 0 < b.length := List.length_pos.mpr hb
    have := ih (fun b' h' => h b' (List.mem_cons_of_mem _ h'))
    omega

theorem aget_aset_self (m : Msg) (k : String) (v : JSValue) :
    (m.set k v).get k = v := by
  simp [Msg.set, Msg.get, alookup_aset_self]

theorem aget_aset_ne (m : Msg) (k k' : String) (v : JSValue) (h : k' ≠ k) :
    (m.set k v).get k' = m.get k' := by
  simp [Msg.set, Msg.get, alookup_aset_ne m.own k k' v h]

theorem applyAll_get_notmem (l : List (Field × JSValue × List Nat)) :
    ∀ (m : Msg) (k : String), (∀ p ∈ l, p.1.name ≠ k) →
    (applyAll m l).get k = m.get k := by
  induction l with
  | nil => intro m k _; rfl
  | cons p rest ih =>
    intro m k hne
    obtain ⟨f, v, b⟩ := p
    simp only [applyAll]
    rw [ih (m.set f.name v) k (fun q hq => hne q (List.mem_cons_of_mem _ hq))]
    exact aget_aset_ne m f.name k v
      (fun he => hne (f, v, b) (List.mem_cons_self _ _) he.symm)

theorem applyAll_get_mem (l : List (Field × JSValue × List Nat)) :
    ∀ (m : Msg) (f : Field) (v : JSValue) (b : List Nat),
    (f, v, b) ∈ l → (l.map (fun p => p.1.name)).Nodup →
    (applyAll m l).get f.name = v := by
  induction l with
  | nil => intro m f v b hmem _; cases hmem
  | cons p rest ih =>
    intro m f v b hmem hnd
    simp only [List.map_cons, List.nodup_cons] at hnd
    rcases List.mem_cons.mp hmem with h | h
    · subst h
      simp only [applyAll]
      rw [applyAll_get_notmem rest (m.set f.name v) f.name
        (fun q hq he => hnd.1 (he ▸ List.mem_map_of_mem (fun p => p.1.name) hq))]
      exact aget_aset_self m f.name v
    · obtain ⟨g, w, c⟩ := p
      simp only [applyAll]
      exact ih (m.set g.name w) f v b h hnd.2

/-- The decode loop consumes a well-formed sequence of encoded blocks of
known singular fields, performing exactly one assignment per block and
landing on the limit. -/
theorem decodeLoop_run (byId : List (Nat × Field)) :
    ∀ (l : List (Field × JSValue × List Nat)) (pre : List Nat) (m : Msg)
      (fuel : Nat),
    l.length ≤ fuel →
    (∀ p ∈ l, typedValB p.1.ftype p.2.1 = true ∧
      fieldEncode p.1 p.2.1 = .ok p.2.2 ∧
      p.1.repeated = false ∧
      byId.find? (fun q => q.1 == p.1.id) = some (p.1.id, p.1)) →
    decodeLoop byId (pre.length + (concatAll (l.map (fun p => p.2.2))).length)
      fuel m ⟨pre ++ concatAll (l.map (fun p => p.2.2)), pre.length⟩ =
      .ok (applyAll m l,
        ⟨pre ++ concatAll (l.map (fun p => p.2.2)),
         pre.length + (concatAll (l.map (fun p => p.2.2))).length⟩) := by
  intro l
  induction l with
  | nil =>
    intro pre m fuel _ _
    cases fuel <;> simp [decodeLoop, applyAll, concatAll]
  | cons p rest ih =>
    intro pre m fuel hfuel hprops
    obtain ⟨f, v, b⟩ := p
    obtain ⟨htyped, henc, hrep, hfind⟩ := hprops (f, v, b) (List.mem_cons_self _ _)
    have hprops' := fun q hq => hprops q (List.mem_cons_of_mem _ hq)
    obtain ⟨fu, rfl⟩ : ∃ fu, fuel = fu + 1 :=
      ⟨fuel - 1, by simp only [List.length_cons] at hfuel; omega⟩
    have hfu : rest.length ≤ fu := by
      simp only [List.length_cons] at hfuel
      omega
    obtain ⟨payload, hshape, hdec⟩ := fieldEncode_shape f v htyped
    have hb : b = varintEncode (f.id * 8 + fieldWireType f.ftype) ++ payload := by
      rw [henc] at hshape
      exact Except.ok.inj hshape
    subst hb
    set tag := varintEncode (f.id * 8 + fieldWireType f.ftype) with htag
    set C := concatAll (rest.map (fun p => p.2.2)) with hC
    have hconc : concatAll (((f, v, tag ++ payload) :: rest).map (fun p => p.2.2)) =
        (tag ++ payload) ++ C := rfl
    rw [hconc]
    have hbuf : pre ++ ((tag ++ payload) ++ C) = pre ++ (tag ++ (payload ++ C)) := by
      simp [List.append_assoc]
    rw [hbuf]
    have hlt : pre.length < pre.length + ((tag ++ payload) ++ C).length := by
      have : tag ≠ [] := varintEncode_ne_nil _
      have : 0 < tag.length := List.length_pos.mpr this
      simp only [List.length_append]
      omega
    simp only [decodeLoop, hlt, if_true]
    rw [reader_varint_at pre tag (payload ++ C) (f.id * 8 + fieldWireType f.ftype)
      (by rw [htag]; exact varintEncode_spec _ _)]
    dsimp only
    have hwt := fieldWireType_lt f.ftype
    have hdiv : (f.id * 8 + fieldWireType f.ftype) / 8 = f.id := by omega
    have hmod : (f.id * 8 + fieldWireType f.ftype) % 8 = fieldWireType f.ftype := by
      omega
    rw [hdiv, hfind]
    dsimp only
    have hbuf2 : pre ++ (tag ++ (payload ++ C)) = (pre ++ tag) ++ (payload ++ C) := by
      simp [List.append_assoc]
    have hpos2 : pre.length + tag.length = (pre ++ tag).length := by
      simp [List.length_append]
    rw [hbuf2, hpos2, hdec (pre ++ tag) C]
    dsimp only
    rw [hrep]
    simp only [Bool.false_eq_true, if_false]
    have hbuf3 : (pre ++ tag) ++ (payload ++ C) = (pre ++ (tag ++ payload)) ++ C := by
      simp [List.append_assoc]
    have hpos3 : (pre ++ tag).length + payload.length = (pre ++ (tag ++ payload)).length := by
      simp [List.length_append]
      omega
    rw [hbuf3, hpos3]
    have hlimit : pre.length + ((tag ++ payload) ++ C).length =
        (pre ++ (tag ++ payload)).length + C.length := by
      simp [List.length_append]
      omega
    rw [hlimit]
    have hrun := ih (pre ++ (tag ++ payload)) (m.set f.name v) fu hfu hprops'
    rw [hrun]
    have happly : applyAll m ((f, v, tag ++ payload) :: rest) =
        applyAll (m.set f.name v) rest := rfl
    rw [happly]

theorem effVal_typed (t : MType) (props : List (String × JSValue)) (f : Field)
    (hf : f ∈ t.fields)
    (hdefs : t.fields.all (fun f => typedValB f.ftype f.defaultValue) = true)
    (hpropsB : t.fields.all (fun f =>
      ((alookup props f.name).map (typedValB f.ftype)).getD true) = true) :
    typedValB f.ftype (effVal props f) = true := by
  rw [List.all_eq_true] at hdefs hpropsB
  have hdef := hdefs f hf
  have hprop := hpropsB f hf
  unfold effVal
  cases halo : alookup props f.name with
  | none => simp [truthy, hdef]
  | some sv =>
    rw [halo] at hprop
    simp only [Option.map_some', Option.getD_some] at hprop
    cases ht : truthy sv <;> simp [ht, hdef, hprop]

/-- C1: the encode/decode round-trip.  For every modelled type and every
properties object of well-typed values, the instance built by `create`
encodes successfully, and decoding those bytes yields an instance that
agrees with the original on every field the encoder actually wrote
(non-required fields whose value loosely equals the default are
suppressed and are not constrained). -/
theorem create_encode_decode_roundtrip (t : MType)
    (props : List (String × JSValue))
    (hnames : (canonNames t).Nodup)
    (hids : (t.fields.map Field.id).Nodup)
    (hcaches : cachesOk t)
    (hflags : t.fields.all (fun f => !f.repeated && !f.map) = true)
    (hdefs : t.fields.all (fun f => typedValB f.ftype f.defaultValue) = true)
    (hpropsB : t.fields.all (fun f =>
      ((alookup props f.name).map (typedValB f.ftype)).getD true) = true) :
    ∃ t₁ m bytes t₂ m₂ r',
      t.create props = .ok (t₁, m) ∧
      t₁.encode m = (.ok bytes, t₂) ∧
      (t₂.decode ⟨bytes, 0⟩ none).1 = .ok (m₂, r') ∧
      ∀ f ∈ t.fields, writeCond m f = true → m₂.get f.name = m.get f.name := by
  obtain ⟨hc1, hc2, hc3⟩ := hcaches
  rw [List.all_eq_true] at hflags
  -- step 1: create
  have hcm := create_spec t props hnames hc1
  set t₁ : MType := { t with fieldNamesCache := some (canonNames t), protoCache := some (protoUsed t) } with ht₁
  set m : Msg := { own := canonOwn props t.fields, proto := protoUsed t } with hm
  have hget : ∀ f ∈ t.fields, m.get f.name = effVal props f := by
    intro f hf
    exact created_get t props f hf hnames hc3
  have htypedEff : ∀ f ∈ t.fields, typedValB f.ftype (effVal props f) = true :=
    fun f hf => effVal_typed t props f hf hdefs hpropsB
  have htypedGet : ∀ f ∈ t.fields, typedValB f.ftype (m.get f.name) = true := by
    intro f hf
    rw [hget f hf]
    exact htypedEff f hf
  -- step 2: encode
  have hlook₁ : ∀ g ∈ t.fields, t₁.fieldByName g.name = some g :=
    fun g hg => fieldByName_of_nodup t.fields g hnames hg
  obtain ⟨l, heq, hmap, hpl⟩ := encodeLoop_spec t₁ m t.fields [] hlook₁
    (by
      intro g hg hw
      obtain ⟨payload, hs, _⟩ := fieldEncode_shape g (m.get g.name) (htypedGet g hg)
      exact ⟨_, hs⟩)
  have hemain : t₁.encode m = (encodeLoop t₁ m (canonNames t) [], t₁) := rfl
  have hmemf : ∀ p ∈ l, p.1 ∈ t.fields ∧ writeCond m p.1 = true := by
    intro p hp
    have : p.1 ∈ t.fields.filter (fun g => writeCond m g) := by
      rw [← hmap]
      exact List.mem_map_of_mem Prod.fst hp
    rw [List.mem_filter] at this
    exact this
  have hpshape : ∀ p ∈ l, p.2.2 ≠ [] := by
    intro p hp
    obtain ⟨hpf, hpw⟩ := hmemf p hp
    obtain ⟨payload, hs, _⟩ := fieldEncode_shape p.1 (m.get p.1.name)
      (htypedGet p.1 hpf)
    have h2 := (hpl p hp).2
    rw [(hpl p hp).1] at h2
    rw [hs] at h2
    have hb := (Except.ok.inj h2).symm
    rw [hb]
    simp only [ne_eq, List.append_eq_nil, not_and]
    intro htag
    exact absurd htag (varintEncode_ne_nil _)
  set bytes : List Nat := concatAll (l.map (fun p => p.2.2)) with hbytes
  -- step 3: decode internals
  have hcm₀ := create_spec t₁ [] hnames (Or.inr rfl)
  set t₃ : MType := { t₁ with fieldNamesCache := some (canonNames t₁), protoCache := some (protoUsed t₁) } with ht₃
  set m₀ : Msg := { own := canonOwn [] t₁.fields, proto := protoUsed t₁ } with hm₀
  obtain ⟨t₄, hbid⟩ := fieldsById_ok t₃ hnames hids
    (by
      rcases hc2 with hc2 | hc2
      · exact Or.inl hc2
      · exact Or.inr hc2)
    (Or.inr rfl)
  have hrun := decodeLoop_run (canonById t₃) l [] m₀ (bytes.length + 1)
    (by
      have := concatAll_length_ge (l.map (fun p => p.2.2))
        (by
          intro b hb
          obtain ⟨p, hp, hpb⟩ := List.mem_map.mp hb
          rw [← hpb]
          exact hpshape p hp)
      rw [← hbytes] at this
      simp only [List.length_map] at this
      omega)
    (by
      intro p hp
      obtain ⟨hpf, hpw⟩ := hmemf p hp
      refine ⟨?_, (hpl p hp).2, ?_, ?_⟩
      · rw [(hpl p hp).1]
        exact htypedGet p.1 hpf
      · have := hflags p.1 hpf
        simp only [Bool.and_eq_true, Bool.not_eq_true'] at this
        exact this.1
      · exact byId_find t.fields p.1 hids hpf)
  simp only [List.nil_append, List.length_nil, Nat.zero_add] at hrun
  rw [← hbytes] at hrun
  -- assemble
  refine ⟨t₁, m, bytes, t₁, applyAll m₀ l, ⟨bytes, bytes.length⟩, hcm, ?_, ?_, ?_⟩
  · rw [hemain]
    simp only [canonNames]
    rw [heq]
    simp
  · simp only [MType.decode, decodeLimit]
    rw [hcm₀]
    dsimp only
    rw [hbid]
    dsimp only
    have hfuel : Reader.len ⟨bytes, 0⟩ - (Reader.pos ⟨bytes, 0⟩) + 1 =
        bytes.length + 1 := by simp [Reader.len]
    simp only [Reader.len]
    rw [show bytes.length - 0 + 1 = bytes.length + 1 from by omega]
    rw [hrun]
    dsimp only
    rw [if_pos rfl]
  · intro f hf hw
    have hffilter : f ∈ t.fields.filter (fun g => writeCond m g) := by
      rw [List.mem_filter]
      exact ⟨hf, hw⟩
    rw [← hmap] at hffilter
    obtain ⟨p, hp, hp1⟩ := List.mem_map.mp hffilter
    have hnodup_l : (l.map (fun p => p.1.name)).Nodup := by
      have h1 : l.map (fun p => p.1.name) =
          (l.map Prod.fst).map Field.name := by
        rw [List.map_map]
        rfl
      rw [h1, hmap]
      exact List.Nodup.sublist
        (List.Sublist.map Field.name (List.filter_sublist t.fields)) hnames
    have hmem : (f, p.2.1, p.2.2) ∈ l := by
      rw [← hp1]
      simpa using hp
    have := applyAll_get_mem l m₀ f p.2.1 p.2.2 hmem hnodup_l
    rw [this]
    rw [(hpl p hp).1, hp1]

/-- C1 (witness): the specification's end-to-end example —
`create({id: 7, name: "x"})` on the two-field schema round-trips through
encode and decode. -/
theorem create_encode_decode_roundtrip_witness :
    ∃ t₁ m bytes t₂ m₂ r',
      exType.create [("id", JSValue.num 7), ("name", JSValue.str [120])] =
        .ok (t₁, m) ∧
      t₁.encode m = (.ok bytes, t₂) ∧
      (t₂.decode ⟨bytes, 0⟩ none).1 = .ok (m₂, r') ∧
      ∀ f ∈ exType.fields, writeCond m f = true →
        m₂.get f.name = m.get f.name :=
  create_encode_decode_roundtrip exType
    [("id", JSValue.num 7), ("name", JSValue.str [120])]
    (by decide) (by decide)
    ⟨Or.inl (by decide), Or.inl (by decide), Or.inl (by decide)⟩
    (by decide) (by decide) (by decide)

/-- C10 (witness): re-parenting field 1 from type 1 to type 2 in the
example world leaves it owned exactly by type 2. -/
theorem add_field_single_owner_witness :
    1 ∈ World.owned ⟨[(1, "f")], [(1, 2)], [(1, []), (2, [1])], []⟩ 2 ∧
    (∀ t, 1 ∈ World.owned ⟨[(1, "f")], [(1, 2)], [(1, []), (2, [1])], []⟩ t →
      t = 2) ∧
    World.inv ⟨[(1, "f")], [(1, 2)], [(1, []), (2, [1])], []⟩ :=
  add_field_single_owner exWorld 2 1 ⟨[(1, "f")], [(1, 2)], [(1, []), (2, [1])], []⟩
    (by decide) (by decide)

end Proto
